import Mathlib

/-!
# Verification of the span-matching / conflict-resolution pipeline (`lab.py`)

This file gives a shallow embedding, in Lean 4, of the algorithmic core of the
transcript-labeling pipeline: the whitespace-snap span correction
(`correctData`), the global entity conflict resolver
(`convert_entities_to_tuples`), the despaced-offset mapper
(`map_index_to_original`), the exact/space-normalized matcher and the fuzzy
sliding-window scan of `sliding_window_match`, the boundary trimmer
(`trim_by_words`), the gap-field extractor (`check_and_extract`,
`extract_course_details_in_gap`), and their auxiliaries.

Conventions:
* Python strings are `List Char`; indices are `Nat` (Python slicing semantics
  are reproduced by `pySub`, which clamps out-of-range bounds).
* Python floats that arise here are always similarity percentages
  (`fuzz.ratio(..) / 100`), so they are represented exactly by the integer
  percentage in `[0,100]`.
* Fallible paths (Python `(-1,-1)` sentinels, unbound locals) are `Option`.
* External collaborators that are not part of the repository are modelled
  explicitly where their behaviour is pinned down by the spec (the NLTK
  stop-word list; `fuzz.ratio`, which is the Levenshtein-based similarity of
  `fuzzywuzzy`), and kept as parameters where it is not (`clean_text`).
-/

namespace Lab

/-- Python whitespace (the characters stripped by `str.strip()` that can occur
in extracted text). -/
def pyWS (c : Char) : Bool :=
  c = ' ' || c = '\t' || c = '\n' || c = '\x0d' || c = '\x0b' || c = '\x0c'

/-- Python slice `t[s:e]` (clamping, empty when `e ≤ s`). -/
def pySub (t : List Char) (s e : Nat) : List Char :=
  (t.drop s).take (e - s)

/-- The left whitespace-snap loop of `correctData`:
`while start > 0 and start < len(text) and text[start-1] != ' ': start -= 1`. -/
def snapL (t : List Char) : Nat → Nat
  | 0 => 0
  | s + 1 =>
    if s + 1 < t.length ∧ t.getD s ' ' ≠ ' ' then snapL t s else s + 1

/-- Fuel-based body of the right whitespace-snap loop (the loop can run at
most `len(text) - end` times, so the fuel below never runs out). -/
def snapRAux (t : List Char) : Nat → Nat → Nat
  | 0, e => e
  | f + 1, e =>
    if e < t.length ∧ 0 < e ∧ t.getD e ' ' ≠ ' ' then snapRAux t f (e + 1) else e

/-- The right whitespace-snap loop of `correctData`:
`while end < len(text) and end > 0 and text[end] != ' ': end += 1`. -/
def snapR (t : List Char) (e : Nat) : Nat :=
  snapRAux t (t.length - e) e

/-- `correctData(start, end, text)` from `lab.py`: strip surrounding
whitespace of `text[start:end]` from the offsets, snap `start` left and `end`
right to space boundaries, and discard the span (`(-1,-1)`, here `none`) if
the result is inverted. -/
def correctData (s e : Nat) (t : List Char) : Option (Nat × Nat) :=
  let sub := pySub t s e
  let leftSpaces := (sub.takeWhile pyWS).length
  let rightSpaces := (sub.reverse.takeWhile pyWS).length
  let stripped := (sub.dropWhile pyWS).reverse.dropWhile pyWS
  let s1 := if sub.length ≠ stripped.length then s + leftSpaces else s
  let e1 := if sub.length ≠ stripped.length then e - rightSpaces else e
  let s2 := snapL t s1
  let e2 := snapR t e1
  if s2 ≤ e2 then some (s2, e2) else none

/-- An entity triple `(start, end, label)` as fed to the global resolver. -/
structure Ent where
  s : Nat
  e : Nat
  l : String
deriving DecidableEq, Repr

/-- `PRIORITY_LIST` from `convert_entities_to_tuples`. -/
def PRIORITY_LIST : List String :=
  ["university", "first_name", "last_name", "credential_name",
   "major", "college", "course", "country", "city", "state", "native_credit",
   "o_mark", "m_mark", "grade", "year", "semester", "total_cgpa"]

/-- Helper for `labelPriority`: position-based priority with default 0. -/
def prioAux : List String → Nat → String → Nat
  | [], _, _ => 0
  | x :: xs, n, l => if x = l then n else prioAux xs (n - 1) l

/-- `LABEL_PRIORITY = {label: len(PRIORITY_LIST) - idx}` with
`LABEL_PRIORITY.get(label, 0)` for unknown labels. -/
def labelPriority (l : String) : Nat :=
  prioAux PRIORITY_LIST PRIORITY_LIST.length l

/-- Strict-overlap test used throughout the resolver:
`start < existing_end and end > existing_start`. -/
def olap (c d : Nat) (x : Ent) : Bool :=
  c < x.e && d > x.s

/-- State threaded by the fold of `convert_entities_to_tuples`: the accepted
group and the `spans_set` of directly accepted spans. (The `skipped_entities`
and `reason_count` audit outputs are write-only and do not influence the
fold, so they are not carried.) -/
structure RState where
  group : List Ent
  spans : List (Nat × Nat)
deriving Repr

/-- The direct-acceptance tail of the loop body of
`convert_entities_to_tuples` (the `spans_set` block reached when the
overlap scan did not set `entity_inside_another`). -/
def acceptDirect (st : RState) (c d : Nat) (l : String) : RState :=
  if (c, d) ∈ st.spans then st
  else if st.group.any (olap c d) then st
  else { group := st.group ++ [⟨c, d, l⟩], spans := st.spans ++ [(c, d)] }

/-- One iteration of the entity loop of `convert_entities_to_tuples`:
pre-filters, `correctData`, the scan against the already accepted group
(first overlapping incumbent decides), and direct acceptance. -/
def procEnt (t : List Char) (st : RState) (ent : Ent) : RState :=
  if pySub t ent.s ent.e = [' '] then st
  else if ent.l = "course" ∧ (pySub t ent.s ent.e).length ≤ 3 then st
  else if ent.s ≥ t.length then st
  else
    match correctData ent.s ent.e t with
    | none => st
    | some (c, d) =>
      match st.group.find? (olap c d) with
      | none => acceptDirect st c d ent.l
      | some x =>
        if c = x.s ∧ d = x.e then
          if labelPriority ent.l > labelPriority x.l then
            { st with group := st.group.erase x ++ [⟨c, d, ent.l⟩] }
          else st
        else if c ≥ x.s ∧ d ≤ x.e then st
        else if x.s ≥ c ∧ x.e ≤ d then
          { st with group :=
              st.group.filter (fun y => ¬(y.s = x.s ∧ y.e = x.e)) ++ [⟨c, d, ent.l⟩] }
        else if labelPriority ent.l > labelPriority x.l then
          acceptDirect { st with group := st.group.erase x ++ [⟨c, d, ent.l⟩] } c d ent.l
        else if labelPriority ent.l < labelPriority x.l then st
        else if d - c > x.e - x.s then
          acceptDirect { st with group := st.group.erase x ++ [⟨c, d, ent.l⟩] } c d ent.l
        else st

/-- Stable insertion used to model Python's stable `sorted(entities,
key=lambda x: x[0])`: an element is placed after every element whose start
is `≤` its own. -/
def insEnt (x : Ent) : List Ent → List Ent
  | [] => [x]
  | y :: ys => if y.s ≤ x.s then y :: insEnt x ys else x :: y :: ys

/-- Stable sort by start offset. -/
def sortEnts (l : List Ent) : List Ent :=
  l.foldl (fun acc x => insEnt x acc) []

/-- `convert_entities_to_tuples(entities, text, ...)`: sort by start, fold
every entity through the conflict logic, and return the non-empty group
(`flattened_entities`). -/
def convertEntitiesToTuples (entities : List Ent) (t : List Char) : List (List Ent) :=
  if ((sortEnts entities).foldl (procEnt t) ⟨[], []⟩).group.isEmpty then []
  else [((sortEnts entities).foldl (procEnt t) ⟨[], []⟩).group]

/-- The overlap relation of the specification's no-overlap invariant:
`start₁ < end₂ ∧ end₁ > start₂`. -/
def entOlap (a b : Ent) : Prop :=
  a.s < b.e ∧ a.e > b.s

instance (a b : Ent) : Decidable (entOlap a b) := by
  unfold entOlap; infer_instance

/-- Provenance predicate carried by the resolver's fold invariant: the span
of `x` is a `correctData` result of some original entity whose start is at
most `b` and in range. -/
def FromCorr (t : List Char) (b : Nat) (x : Ent) : Prop :=
  ∃ s e, s ≤ b ∧ s < t.length ∧ correctData s e t = some (x.s, x.e)

/-- `text.replace(" ", "")` — only the plain space character is removed. -/
def despace (t : List Char) : List Char :=
  t.filter (fun c => c ≠ ' ')

/-- Number of non-space characters of `t` (the length of its despaced view). -/
def nsCountL (t : List Char) : Nat :=
  (despace t).length

/-- Index (into `t`) of the `k`-th non-space character (0-based); returns
`t.length` when there are at most `k` non-space characters. -/
def nsIdx : List Char → Nat → Nat
  | [], _ => 0
  | c :: rest, k =>
    if c ≠ ' ' then (if k = 0 then 0 else 1 + nsIdx rest (k - 1))
    else 1 + nsIdx rest k

/-- The lockstep walk of `map_index_to_original`, structural on the remaining
text: `p` is the absolute position of the head of the remaining list, `q` the
number of non-space characters already passed, and the accumulator holds the
`(original_start, original_end)` values written so far (initially `(0, 0)`). -/
def mapIdxAux (sns ens : Nat) : List Char → Nat → Nat → Nat × Nat → Nat × Nat
  | [], _, _, acc => acc
  | c :: rest, p, q, (os, oe) =>
    if c ≠ ' ' then
      if q = ens then ((if q = sns then p else os), p - 1)
      else mapIdxAux sns ens rest (p + 1) (q + 1) ((if q = sns then p else os), oe)
    else mapIdxAux sns ens rest (p + 1) q (os, oe)

/-- `map_index_to_original(page_text, page_text_no_space, start_no_space,
end_no_space)`; the despaced-text argument is unused by the Python body and
omitted here.  `original_end` is the Python `pointer - 1`, truncated at 0
(callers always pass `end_no_space ≥ 1`, where the pointer is positive). -/
def map_index_to_original (t : List Char) (sns ens : Nat) : Nat × Nat :=
  mapIdxAux sns ens t 0 0 (0, 0)

/-- Fuel-based body of the forward end-snap of the exact matcher. -/
def snapFwdAux (t : List Char) : Nat → Nat → Nat
  | 0, e => e
  | f + 1, e =>
    if e < t.length ∧ t.getD e ' ' ≠ ' ' then snapFwdAux t f (e + 1) else e

/-- The forward end-snap of the exact matcher:
`while end_idx < len(page_text) and page_text[end_idx] != " ": end_idx += 1`
(unlike `snapR` there is no `end > 0` guard). -/
def snapFwd (t : List Char) (e : Nat) : Nat :=
  snapFwdAux t (t.length - e) e

/-- ASCII lower-casing, the fragment of `str.lower()` exercised here. -/
def lowerC (c : Char) : Char :=
  if 'A' ≤ c ∧ c ≤ 'Z' then Char.ofNat (c.toNat + 32) else c

/-- Case-insensitive "`pat` starts at the head of `txt`", for the
`re.IGNORECASE` literal search. -/
def matchesAt : List Char → List Char → Bool
  | [], _ => true
  | _ :: _, [] => false
  | a :: ps, b :: ts => if lowerC a = lowerC b then matchesAt ps ts else false

/-- Fuel-based scan of `re.finditer(re.escape(pat), txt, re.IGNORECASE)` for a
non-empty literal `pat`: leftmost non-overlapping case-insensitive
occurrences; `i` is the absolute position of the remaining suffix. -/
def findIterAux (pat : List Char) : Nat → List Char → Nat → List Nat
  | 0, _, _ => []
  | f + 1, txt, i =>
    if matchesAt pat txt then
      i :: findIterAux pat f (txt.drop pat.length) (i + pat.length)
    else
      match txt with
      | [] => []
      | _ :: rest => findIterAux pat f rest (i + 1)

/-- All case-insensitive non-overlapping occurrence positions of the literal
`pat` in `txt` (pattern assumed non-empty, as guaranteed upstream). -/
def findIter (pat txt : List Char) : List Nat :=
  if pat.isEmpty then [] else findIterAux pat (txt.length + 1) txt 0

/-- "`pat` starts at the head of `txt`", case-sensitive (both sides already
lower-cased where this is used). -/
def startsWithCh : List Char → List Char → Bool
  | [], _ => true
  | _ :: _, [] => false
  | a :: ps, b :: ts => if a = b then startsWithCh ps ts else false

/-- Plain substring containment, Python `needle in hay`. -/
def containsSub (needle : List Char) : List Char → Bool
  | [] => needle.isEmpty
  | c :: rest => startsWithCh needle (c :: rest) || containsSub needle rest

/-- `lab_variations` built from the lowercased variant. -/
def labVariations (courseLower : List Char) : List (List Char) :=
  [courseLower ++ " lab".data, courseLower ++ " laboratory".data,
   courseLower ++ " (practical)".data]

/-- The lab-sibling catalog test of the exact pass:
`any(variation in [c.lower() for c in course_list] for variation in lab_variations)`. -/
def hasLabSibling (courseLower : List Char) (courseList : List (List Char)) : Bool :=
  (labVariations courseLower).any
    (fun v => (courseList.map (fun c => c.map lowerC)).contains v)

/-- One record of the exact pass (`exact_matches`); the constant `Course` and
`Page_number` metadata fields are pass-through and omitted, and `Confidence`
(always the float `1.0` here) is kept as a percentage. -/
structure ExactMatch where
  s : Nat
  e : Nat
  text : List Char
  confPct : Nat
deriving DecidableEq, Repr

/-- The loop body of the exact pass for the occurrence at despaced position
`i`: discard the occurrence (`none`) when the catalog has a lab sibling of the
variant and the next 5 (resp. 11) despaced characters contain `"lab"` (resp.
`"practical"`); otherwise map the despaced offsets back with
`map_index_to_original` and snap the end forward to the next space. -/
def exactOne (pageText course : List Char) (courseList : List (List Char))
    (i : Nat) : Option ExactMatch :=
  if hasLabSibling (course.map lowerC) courseList ∧
      (containsSub "lab".data ((pySub (despace pageText) (i + (despace course).length)
          (i + (despace course).length + 5)).map lowerC) = true ∨
       containsSub "practical".data ((pySub (despace pageText) (i + (despace course).length)
          (i + (despace course).length + 11)).map lowerC) = true)
  then none
  else
    some ⟨(map_index_to_original pageText i (i + (despace course).length)).1,
          snapFwd pageText (map_index_to_original pageText i (i + (despace course).length)).2,
          pySub pageText (map_index_to_original pageText i (i + (despace course).length)).1
            (snapFwd pageText (map_index_to_original pageText i (i + (despace course).length)).2),
          100⟩

/-- The exact pass of `sliding_window_match` for one course variant: scan the
despaced page case-insensitively for the despaced variant and process every
occurrence with `exactOne`. -/
def exactMatchesOneVariant (pageText course : List Char)
    (courseList : List (List Char)) : List ExactMatch :=
  (findIter (despace course) (despace pageText)).filterMap
    (exactOne pageText course courseList)

/-- The `next_start_idx` search loop of `extract_course_details_in_gap`,
over the list of `Start Index` values of `current_page_matches_sorted` (the
only field the loop reads): the first entry equal to `start_idx` is located;
its successor entry is the window bound, or `end_idx + 20` at the list tail;
`none` (Python `None`) when `start_idx` does not occur. The successor choice
(`current_page_matches_sorted[i+1]['Start Index']` or `end_idx + 20` at the
tail) is `succBound`. -/
def succBound (rest : List Nat) (endIdx : Nat) : Nat :=
  match rest with
  | [] => endIdx + 20
  | s2 :: _ => s2

def nextStartIdx : List Nat → Nat → Nat → Option Nat
  | [], _, _ => none
  | s :: rest, startIdx, endIdx =>
    if s = startIdx then some (succBound rest endIdx)
    else nextStartIdx rest startIdx endIdx

/-- The gap window `gap_text = page_text[end_idx:next_start_idx]` of
`extract_course_details_in_gap`. Python guards it with
`if next_start_idx:`, which treats both `None` and `0` as false and then
leaves `gap_text` unbound (a `NameError` at first use); both paths are
`none` here. -/
def gapText (pageText : List Char) (starts : List Nat) (startIdx endIdx : Nat) :
    Option (List Char) :=
  match nextStartIdx starts startIdx endIdx with
  | none => none
  | some n => if n = 0 then none else some (pySub pageText endIdx n)

/-- ASCII decimal digit (`str.isdigit` / regex `\d` on this data). -/
def isDigitC (c : Char) : Bool :=
  '0' ≤ c ∧ c ≤ '9'

/-- Regex word character `\w` (ASCII fragment exercised by this data). -/
def isWordC (c : Char) : Bool :=
  isDigitC c || ('a' ≤ c ∧ c ≤ 'z') || ('A' ≤ c ∧ c ≤ 'Z') || c = '_'

/-- One alternative of the `(?<=\s)(a₁|a₂|…)(?=\s|\b)` value patterns of
`check_and_extract`, tried at position `pos` of `txt`: the literal starts
there, the preceding character exists and is whitespace, and after the
literal comes whitespace or a word boundary (wordness differs between the
literal's last character and the next character, or the text ends on a word
character). -/
def altHit (a txt : List Char) (pos : Nat) : Bool :=
  if startsWithCh a (txt.drop pos) = true ∧ 0 < pos ∧
      pyWS (txt.getD (pos - 1) 'x') = true then
    (if pos + a.length < txt.length then
      pyWS (txt.getD (pos + a.length) 'x')
        || (isWordC (a.getD (a.length - 1) 'x') != isWordC (txt.getD (pos + a.length) 'x'))
    else isWordC (a.getD (a.length - 1) 'x'))
  else false

/-- First alternative (in list order) hitting at position `pos`. -/
def altAt : List (List Char) → List Char → Nat → Option (Nat × Nat × List Char)
  | [], _, _ => none
  | a :: rest, txt, pos =>
    if altHit a txt pos then some (pos, pos + a.length, a)
    else altAt rest txt pos

/-- Fuel-based position scan of `re.search`: try positions `pos, pos+1, …`
and return the first hit. -/
def searchPosAux (alts : List (List Char)) (txt : List Char) :
    Nat → Nat → Option (Nat × Nat × List Char)
  | 0, _ => none
  | f + 1, pos =>
    match altAt alts txt pos with
    | some r => some r
    | none => searchPosAux alts txt f (pos + 1)

/-- `re.search` of `(?<=\s)(a₁|a₂|…)(?=\s|\b)` over `txt`, returning the
match's span and the matched alternative. The leftmost hit position wins; at
equal positions the first alternative in list order wins (Python builds the
alternation from a `set` with arbitrary iteration order; the theorems below
do not depend on the order). -/
def searchPat (alts : List (List Char)) (txt : List Char) :
    Option (Nat × Nat × List Char) :=
  searchPosAux alts txt (txt.length + 1) 0

/-- Python `str.rstrip('0')`. -/
def rstripZeros (l : List Char) : List Char :=
  (l.reverse.dropWhile (fun c => c = '0')).reverse

/-- Parse the plain decimal literals occurring as marks (`\d+(\.\d*)?`) into
integer- and fraction-digit strings; `none` models the `ValueError` raised by
`float(value_str)` on other shapes (signed, exponent and special-float forms
do not occur in this data). -/
def parseDec (s : List Char) : Option (List Char × List Char) :=
  if s.takeWhile isDigitC = [] then none
  else if s.drop (s.takeWhile isDigitC).length = [] then
    some (s.takeWhile isDigitC, [])
  else if (s.drop (s.takeWhile isDigitC).length).getD 0 'x' = '.' ∧
      ((s.drop (s.takeWhile isDigitC).length).drop 1).all isDigitC then
    some (s.takeWhile isDigitC, (s.drop (s.takeWhile isDigitC).length).drop 1)
  else none

/-- `f"{x:.kf}"` for the float with integer digits `ip` and fraction digits
`fp`, in the rounding-free case `fp.length ≤ k` exercised by this data
(right-padded with zeros). -/
def fmtDec (ip fp : List Char) (k : Nat) : List Char :=
  ip ++ '.' :: (fp ++ List.replicate (k - fp.length) '0').take k

/-- `value_str_without_decimal` of `check_and_extract`: `"0.0"` maps to
`"00"`; otherwise for a dotted value, `value_str[:-2]` when the integer part
has exactly two digits, else all dots removed and trailing zeros stripped;
undotted values pass through. -/
def valueWithoutDecimal (valueStr : List Char) : List Char :=
  if valueStr = "0.0".data then valueStr.filter (fun c => c ≠ '.')
  else if valueStr.any (fun c => c = '.') then
    (if (valueStr.takeWhile (fun c => c ≠ '.')).length = 2 then
      valueStr.take (valueStr.length - 2)
    else rstripZeros (valueStr.filter (fun c => c ≠ '.')))
  else valueStr

/-- The `decimal_variants` of `check_and_extract` (as a list; Python uses a
set): the one-to-four-decimal-place reformattings, `value_str` itself
(`value_str_with_decimal` always equals `value_str`), the decimal-stripped
form, and the zero-padded forms when the stripped form is all digits. -/
def decimalVariants (valueStr : List Char) : List (List Char) :=
  (match parseDec valueStr with
   | some (ip, fp) =>
     [fmtDec ip fp 1, fmtDec ip fp 2, fmtDec ip fp 3, fmtDec ip fp 4]
   | none => [])
  ++ [valueStr, valueWithoutDecimal valueStr]
  ++ (if valueWithoutDecimal valueStr ≠ [] ∧
        (valueWithoutDecimal valueStr).all isDigitC then
      [valueWithoutDecimal valueStr ++ ['0'], valueWithoutDecimal valueStr ++ ['0', '0']]
    else [])

/-- The `padded_variants` of `check_and_extract`: the zero-padded forms
alone. -/
def paddedVariants (valueStr : List Char) : List (List Char) :=
  if valueWithoutDecimal valueStr ≠ [] ∧
      (valueWithoutDecimal valueStr).all isDigitC then
    [valueWithoutDecimal valueStr ++ ['0'], valueWithoutDecimal valueStr ++ ['0', '0']]
  else []

/-- `check_and_extract(value, value_str, gap_text, end_idx, key)`.

`none` is the path where Python raises `ValueError`
(`int(float(value_str))` on a non-decimal string after the direct search
fails); `some none` extracts no field; `some (some (s, e, v))` extracts a
field with absolute offsets `s`, `e` (the in-gap match span shifted by
`end_idx`) and stored value `v` — the matched string padded with one space on
each side. The `re.search(exact_match_pattern, …)` result for the truncated
integer is dead in the source (`match` is overwritten by the variant search
before the final `if match:`), so only the direct, decimal-variant and padded
searches can produce the field. -/
def checkAndExtract (valueStr gapText : List Char) (endIdx : Nat) :
    Option (Option (Nat × Nat × List Char)) :=
  if valueStr = [] ∨ valueStr.all pyWS then some none
  else
    match searchPat [valueStr] gapText with
    | some (s, e, m) =>
      if m.all pyWS then some none
      else some (some (s + endIdx, e + endIdx, ' ' :: m ++ [' ']))
    | none =>
      match parseDec valueStr with
      | none => none
      | some _ =>
        match searchPat (decimalVariants valueStr) gapText with
        | some (s, e, m) =>
          if m.all pyWS then some none
          else some (some (s + endIdx, e + endIdx, ' ' :: m ++ [' ']))
        | none =>
          match searchPat (paddedVariants valueStr) gapText with
          | some (s, e, m) =>
            if m.all pyWS then some none
            else some (some (s + endIdx, e + endIdx, ' ' :: m ++ [' ']))
          | none => some none

/-- Accumulator pass of Python `str.split()` (split on whitespace runs,
empty tokens discarded). -/
def pySplitAux : List Char → List Char → List (List Char)
  | [], acc => if acc = [] then [] else [acc.reverse]
  | c :: rest, acc =>
    if pyWS c then
      (if acc = [] then pySplitAux rest [] else acc.reverse :: pySplitAux rest [])
    else pySplitAux rest (c :: acc)

/-- Python `str.split()`. -/
def pySplit (t : List Char) : List (List Char) :=
  pySplitAux t []

/-- Python `' '.join(words)`. -/
def joinSpace : List (List Char) → List Char
  | [] => []
  | [w] => w
  | w :: ws => w ++ ' ' :: joinSpace ws

/-- ASCII upper-casing (`str.upper()` fragment exercised here). -/
def upperC (c : Char) : Char :=
  if 'a' ≤ c ∧ c ≤ 'z' then Char.ofNat (c.toNat - 32) else c

/-- `stop_words`: the NLTK English stop-word list (external pinned data of
`nltk.corpus.stopwords.words('english')`) with the source's
`stop_words.update({'and'})` (a no-op: `'and'` is already present). -/
def STOP_WORDS : List (List Char) :=
  (["i", "me", "my", "myself", "we", "our", "ours", "ourselves", "you",
    "you're", "you've", "you'll", "you'd", "your", "yours", "yourself",
    "yourselves", "he", "him", "his", "himself", "she", "she's", "her",
    "hers", "herself", "it", "it's", "its", "itself", "they", "them",
    "their", "theirs", "themselves", "what", "which", "who", "whom", "this",
    "that", "that'll", "these", "those", "am", "is", "are", "was", "were",
    "be", "been", "being", "have", "has", "had", "having", "do", "does",
    "did", "doing", "a", "an", "the", "and", "but", "if", "or", "because",
    "as", "until", "while", "of", "at", "by", "for", "with", "about",
    "against", "between", "into", "through", "during", "before", "after",
    "above", "below", "to", "from", "up", "down", "in", "out", "on", "off",
    "over", "under", "again", "further", "then", "once", "here", "there",
    "when", "where", "why", "how", "all", "any", "both", "each", "few",
    "more", "most", "other", "some", "such", "no", "nor", "not", "only",
    "own", "same", "so", "than", "too", "very", "s", "t", "can", "will",
    "just", "don", "don't", "should", "should've", "now", "d", "ll", "m",
    "o", "re", "ve", "y", "ain", "aren", "aren't", "couldn", "couldn't",
    "didn", "didn't", "doesn", "doesn't", "hadn", "hadn't", "hasn",
    "hasn't", "haven", "haven't", "isn", "isn't", "ma", "mightn",
    "mightn't", "mustn", "mustn't", "needn", "needn't", "shan", "shan't",
    "shouldn", "shouldn't", "wasn", "wasn't", "weren", "weren't", "won",
    "won't", "wouldn", "wouldn't"] : List String).map String.data

/-- The word-popping loop of `trim_leading_stopwords`: pop leading stop
words, but stop at a leading `'the'`. -/
def trimLeadingStopAux : List (List Char) → List (List Char)
  | [] => []
  | w :: ws =>
    if (w.map lowerC) ∈ STOP_WORDS then
      (if w.map lowerC = "the".data then w :: ws else trimLeadingStopAux ws)
    else w :: ws

/-- `trim_leading_stopwords(text)`. -/
def trim_leading_stopwords (text : List Char) : List Char :=
  joinSpace (trimLeadingStopAux (pySplit text))

/-- `is_roman(word)`: all characters of `word.upper()` are Roman-numeral
letters (vacuously true for the empty word, as in the source). -/
def isRoman (w : List Char) : Bool :=
  w.all (fun c => (['I', 'V', 'X', 'L', 'C', 'D', 'M'] : List Char).contains (upperC c))

/-- `is_numeral(word)`: `int(word)` succeeds — an optional sign followed by
digits (the whitespace/underscore forms `int` also accepts do not occur in
split tokens of this data). -/
def isNumeral (w : List Char) : Bool :=
  match w with
  | [] => false
  | c :: rest =>
    if c = '+' ∨ c = '-' then rest ≠ [] ∧ rest.all isDigitC
    else w.all isDigitC

/-- `str(int(w))` for a token accepted by `is_numeral`: canonical decimal
(sign and leading zeros normalized). -/
def canonInt (w : List Char) : List Char :=
  let ds := if w.getD 0 'x' = '+' ∨ w.getD 0 'x' = '-' then w.drop 1 else w
  let stripped := ds.dropWhile (fun c => c = '0')
  let core := if stripped = [] then ['0'] else stripped
  if w.getD 0 'x' = '-' ∧ core ≠ ['0'] then '-' :: core else core

/-- The `roman_to_numeral` table of the source. -/
def ROMAN_PAIRS : List (List Char × List Char) :=
  [("I", "1"), ("II", "2"), ("III", "3"), ("IV", "4"), ("V", "5"),
   ("VI", "6"), ("VII", "7"), ("VIII", "8"), ("IX", "9"), ("X", "10"),
   ("XI", "11"), ("XII", "12"), ("XIII", "13"), ("XIV", "14"), ("XV", "15"),
   ("XVI", "16"), ("XVII", "17"), ("XVIII", "18"), ("XIX", "19"),
   ("XX", "20")].map (fun p => (p.1.data, p.2.data))

/-- `roman_to_numeral_converter(roman)`: upper-case, then map Roman→number,
else number→Roman, else return the upper-cased input. -/
def romanConv (s : List Char) : List Char :=
  match ROMAN_PAIRS.find? (fun p => p.1 == s.map upperC) with
  | some p => p.2
  | none =>
    match ROMAN_PAIRS.find? (fun p => p.2 == s.map upperC) with
    | some p => p.1
    | none => s.map upperC

/-- One row update of the longest-common-subsequence table: given the row of
LCS values of `as` against every suffix of `b` (inner lists aligned with the
suffixes, last entry 0), produce the row for `c :: as`. -/
def lcsStep (c : Char) : List Char → List Nat → List Nat
  | [], _ => [0]
  | bj :: brest, prev =>
    let tail := lcsStep c brest (prev.drop 1)
    (if c = bj then 1 + (prev.drop 1).headD 0
     else max (tail.headD 0) (prev.headD 0)) :: tail

/-- Longest-common-subsequence length of two strings (row dynamic
program). -/
def lcs (a b : List Char) : Nat :=
  (a.foldr (fun c prev => lcsStep c b prev) (List.replicate (b.length + 1) 0)).headD 0

/-- Python 3 `round` at integer precision for the non-negative rational
`num / den` (banker's rounding), `den ≠ 0`. -/
def pyRound (num den : Nat) : Nat :=
  if 2 * (num % den) < den then num / den
  else if den < 2 * (num % den) then num / den + 1
  else if num / den % 2 = 0 then num / den else num / den + 1

/-- `fuzz.ratio` of `fuzzywuzzy` backed by `python-Levenshtein`:
`round(100 * (lensum - dist) / lensum)` where `dist` is the edit distance
with substitution cost 2, which equals `lensum - 2·LCS`; hence
`round(200·LCS / lensum)` (and 100 for two empty strings). -/
def fuzzScore (a b : List Char) : Nat :=
  if a.length + b.length = 0 then 100
  else pyRound (200 * lcs a b) (a.length + b.length)

/-- The first `'+'`/single-letter boundary pre-trim of `trim_by_words`:
drop the first match word when it has a `'+'` among its first two characters
while the course name does not start with `'+'`, or when it is a single
letter while the first course word is longer. -/
def plusTrim1 (courseName : List Char) (courseWords bmWords : List (List Char)) :
    List (List Char) :=
  if (((bmWords.headD []).take 2).any (fun c => c = '+')
        ∧ ¬ courseName.getD 0 'x' = '+')
      ∨ ((bmWords.headD []).length = 1 ∧ 1 < (courseWords.headD []).length)
  then bmWords.drop 1 else bmWords

/-- The last-word `'+'` pre-trim of `trim_by_words`: drop the last match
word when its last two characters contain `'+'` while the course name does
not end with `'+'`. -/
def plusTrim2 (courseName : List Char) (bmWords : List (List Char)) :
    List (List Char) :=
  if (((bmWords.getLastD []).drop ((bmWords.getLastD []).length - 2)).any
        (fun c => c = '+'))
      ∧ ¬ courseName.getD (courseName.length - 1) 'x' = '+'
  then bmWords.dropLast else bmWords

/-- The Roman/numeral adjustment of `course_name_part2` in `trim_by_words`:
unchanged in the pass-cases; converted Roman→number when the match boundary
is a number and the course boundary Roman; converted number→Roman (through
`str(int(·))`) in the opposite case. -/
def adjustedCN2 (cn2 bm2 : List Char) : List Char :=
  if (¬ isRoman cn2 ∧ ¬ isNumeral cn2 ∧ ¬ isRoman bm2 ∧ ¬ isNumeral bm2)
      ∨ bm2 = cn2
      ∨ ((isNumeral cn2 ∨ isRoman cn2) ∧ (¬ isNumeral bm2 ∧ ¬ isRoman bm2))
      ∨ ((¬ isNumeral cn2 ∧ ¬ isRoman cn2) ∧ (isNumeral bm2 ∨ isRoman bm2))
  then cn2
  else if isNumeral bm2 ∧ isRoman cn2 then romanConv cn2
  else if isRoman bm2 ∧ isNumeral cn2 then romanConv (canonInt cn2)
  else cn2

/-- The `score_part1 == 0` trim of `trim_by_words`. -/
def scoreDrop1 (s1 : Nat) (bmWords : List (List Char)) : List (List Char) :=
  if s1 = 0 then bmWords.drop 1 else bmWords

/-- The `score_part2` if/elif chain of `trim_by_words`: drop the last word
on a zero score; otherwise on a boundary score below 50 re-score against the
two joined boundary words of the current list and drop one word if still
below 50. -/
def scoreDrop2 (cn1 cn2 : List Char) (s1 s2 : Nat)
    (bmWords : List (List Char)) : List (List Char) :=
  if s2 = 0 then bmWords.dropLast
  else if s1 < 50 ∧ 1 < bmWords.length then
    (if fuzzScore (cn1.map lowerC) ((joinSpace (bmWords.take 2)).map lowerC) < 50
     then bmWords.drop 1 else bmWords)
  else if s2 < 50 ∧ 1 < bmWords.length then
    (if fuzzScore (cn2.map lowerC)
        ((joinSpace (bmWords.drop (bmWords.length - 2))).map lowerC) < 50
     then bmWords.dropLast else bmWords)
  else bmWords

/-- The word-level core of `trim_by_words` past the early returns: the two
`'+'` pre-trims, the boundary scores against the (possibly Roman/numeral
converted) course boundary words, and the score-based drops. `none` is the
`IndexError` Python raises at `best_match_words[0]` when the pre-trims
emptied the list. -/
def trimCore (courseName : List Char) (courseWords bmWords0 : List (List Char)) :
    Option (List (List Char)) :=
  match plusTrim2 courseName (plusTrim1 courseName courseWords bmWords0) with
  | [] => none
  | w :: ws =>
    some (scoreDrop2
      (courseWords.headD [])
      (adjustedCN2 (courseWords.getLastD []) ((w :: ws).getLastD []))
      (fuzzScore ((courseWords.headD []).map lowerC) (w.map lowerC))
      (fuzzScore
        ((adjustedCN2 (courseWords.getLastD []) ((w :: ws).getLastD [])).map lowerC)
        (((w :: ws).getLastD []).map lowerC))
      (scoreDrop1
        (fuzzScore ((courseWords.headD []).map lowerC) (w.map lowerC))
        (w :: ws)))

/-- `trim_by_words(course_name, best_match_text)`: trim leading stop words,
return early when either side has fewer than two tokens, otherwise run the
word-level trimming core and re-join with spaces. -/
def trim_by_words (courseName bestMatchText : List Char) : Option (List Char) :=
  if (pySplit courseName).length = 0
      ∨ (pySplit (trim_leading_stopwords bestMatchText)).length = 0 then
    some (trim_leading_stopwords bestMatchText)
  else if (pySplit courseName).length = 1
      ∨ (pySplit (trim_leading_stopwords bestMatchText)).length = 1 then
    some (trim_leading_stopwords bestMatchText)
  else
    Option.map joinSpace
      (trimCore courseName (pySplit courseName)
        (pySplit (trim_leading_stopwords bestMatchText)))

/-- `str.replace(pat, rep)`: replace all non-overlapping occurrences left to
right (`pat` non-empty at every use in the source). -/
def replaceAllAux (pat rep : List Char) : Nat → List Char → List Char
  | 0, txt => txt
  | f + 1, txt =>
    if startsWithCh pat txt ∧ pat ≠ [] then
      rep ++ replaceAllAux pat rep f (txt.drop pat.length)
    else
      match txt with
      | [] => []
      | c :: rest => c :: replaceAllAux pat rep f rest

/-- `str.replace(pat, rep)`. -/
def replaceAll (pat rep t : List Char) : List Char :=
  replaceAllAux pat rep (t.length + 1) t

/-- The digit→Roman replacement loop of `normalize_course_name` (sequential
`str.replace` over the pairs `1→I … 8→VIII`, in dict insertion order). -/
def digitToRoman (t : List Char) : List Char :=
  [("1", "I"), ("2", "II"), ("3", "III"), ("4", "IV"), ("5", "V"),
   ("6", "VI"), ("7", "VII"), ("8", "VIII")].foldl
    (fun acc p => replaceAll p.1.data p.2.data acc) t

/-- The Roman→digit replacement loop of `normalize_course_name`. Its
patterns are the upper-case Roman numerals `I … VIII`, applied to strings
that were already lower-cased, so these replaces never fire; they are kept
literally. -/
def romanBack (t : List Char) : List Char :=
  [("I", "1"), ("II", "2"), ("III", "3"), ("IV", "4"), ("V", "5"),
   ("VI", "6"), ("VII", "7"), ("VIII", "8")].foldl
    (fun acc p => replaceAll p.1.data p.2.data acc) t

/-- `normalize_course_name(course_name)`: digits to Roman, then the
hyphen-to-space and hyphen-removed lower-cased forms, then the (inert)
Roman-to-digit loop; returns the pair of normalized forms. -/
def normalize_course_name (t : List Char) : List Char × List Char :=
  (romanBack ((replaceAll ['-'] [' '] (digitToRoman t)).map lowerC),
   romanBack ((replaceAll ['-'] [] (digitToRoman t)).map lowerC))

/-- The single-quote character (used by Python `str(tuple)`). -/
def SQ : Char := Char.ofNat 39

/-- Python `str((a, b))` for a pair of strings without quote or backslash
characters (as in this data): `('a', 'b')`. -/
def reprPair (p : List Char × List Char) : List Char :=
  '(' :: SQ :: (p.1 ++ SQ :: ',' :: ' ' :: SQ :: (p.2 ++ [SQ, ')']))

/-- `calculate_confidence(window, course_name)` as an integer percentage:
`fuzz.ratio` is called on the two PAIRS returned by
`normalize_course_name`; `fuzzywuzzy` coerces non-string arguments with
`str(...)`, so the similarity is computed over the tuple reprs. -/
def calculate_confidence (window courseName : List Char) : Nat :=
  fuzzScore (reprPair (normalize_course_name window))
    (reprPair (normalize_course_name courseName))

/-- State of the sliding-window scan of `sliding_window_match`:
`max_confidence` (percent), `best_match`, `best_match_start_idx` (word
index; Python leaves it unbound until a window scores above 0, it is only
read afterwards), and `best_matches` (the tie pool). -/
structure ScanSt where
  maxConf : Nat
  best : List Char
  idx : Nat
  bms : List (List Char × Nat)
deriving DecidableEq, Repr

/-- The last-with-maximal-score selection over the rescored tie pool
(`for match, score, idx in same_match: if score >= best_match_score: …`). -/
def pickBest : List (List Char × Nat × Nat) → (List Char × Nat × Nat) →
    (List Char × Nat × Nat)
  | [], acc => acc
  | (m, sc, idx) :: rest, (bm, bs, bi) =>
    pickBest rest (if bs ≤ sc then (m, sc, idx) else (bm, bs, bi))

/-- One iteration of the window loop of the fuzzy pass of
`sliding_window_match` at word index `i`: update the best window (with the
despaced tie-rescoring pool on exact ties at or above 0.80), then the
`if max_confidence > 0.90: continue` guard — which precedes and therefore
always pre-empts the `max_confidence == 1.0` break, so the returned flag
(the break) is never set once the maximum exceeds 0.90. -/
def scanStep (course : List Char) (pageWords : List (List Char))
    (st : ScanSt) (i : Nat) : ScanSt × Bool :=
  let window := joinSpace ((pageWords.drop i).take (pySplit course).length)
  let conf := calculate_confidence window course
  let st1 :=
    if st.maxConf < conf then
      { st with maxConf := conf, best := window, idx := i }
    else if conf = st.maxConf ∧ 80 ≤ conf then
      let pool := (if st.best ≠ [] then st.bms ++ [(st.best, st.idx)] else st.bms)
        ++ [(window, i)]
      let same := pool.map (fun p =>
        (p.1, fuzzScore ((despace course).map lowerC) ((despace p.1).map lowerC),
         p.2))
      let picked := pickBest same ([], 0, i)
      { st with best := picked.1, idx := picked.2.2, bms := pool }
    else st
  if 90 < st1.maxConf then (st1, false)
  else if st1.maxConf = 100 then ({ st1 with best := window, idx := i }, true)
  else (st1, false)

/-- Fuel-based window loop (`for i in range(current_position, …)` with the
body's `break`). -/
def scanAux (course : List Char) (pageWords : List (List Char)) :
    Nat → Nat → ScanSt → ScanSt
  | 0, _, st => st
  | f + 1, i, st =>
    match scanStep course pageWords st i with
    | (st', true) => st'
    | (st', false) => scanAux course pageWords f (i + 1) st'

/-- The full window scan of the fuzzy pass for one course variant, from word
index `current_position` to `len(page_words) - len(course.split())`. -/
def runScan (course : List Char) (pageWords : List (List Char))
    (curPos : Nat) : ScanSt :=
  scanAux course pageWords
    (pageWords.length + 1 - (pySplit course).length - curPos) curPos
    ⟨0, [], 0, []⟩

/-- `start_idx_in_text`: character offset of word `k` of the page
(`sum of len(word) + 1` over the preceding words). -/
def startIdxInText (pageWords : List (List Char)) (k : Nat) : Nat :=
  (pageWords.take k).foldl (fun acc w => acc + w.length + 1) 0

/-- The characters removed by `special_chars_pattern`
(`[.:*+?|()\[\]{}^$\s"]`, whitespace handled via `pyWS`). -/
def SPECIAL_CHARS : List Char :=
  ['.', ':', '*', '+', '?', '|', '(', ')', '[', ']',
   Char.ofNat 123, Char.ofNat 125, '^', '$', Char.ofNat 34]

/-- `re.sub(special_chars_pattern, '', t)`. -/
def stripSpecial (t : List Char) : List Char :=
  t.filter (fun c => ¬ (SPECIAL_CHARS.contains c ∨ pyWS c = true))

/-- Clamp a Python index (possibly negative, counted from the end) for
slicing a string of length `len`. -/
def pyIdx (len : Nat) (i : Int) : Nat :=
  if i < 0 then (if (len : Int) + i < 0 then 0 else ((len : Int) + i).toNat)
  else min i.toNat len

/-- Python slice `t[s:e]` with signed bounds. -/
def pySubI (t : List Char) (s e : Int) : List Char :=
  (t.drop (pyIdx t.length s)).take (pyIdx t.length e - pyIdx t.length s)

/-- Fuel-based crawl of `str.find` from a given suffix. -/
def pyFindAux (needle : List Char) : Nat → List Char → Nat → Option Nat
  | 0, _, _ => none
  | f + 1, suffix, i =>
    if startsWithCh needle suffix then some i
    else
      match suffix with
      | [] => none
      | _ :: rest => pyFindAux needle f rest (i + 1)

/-- `hay.find(needle, start)`, `-1` (here `none`) when absent. -/
def pyFind (needle hay : List Char) (start : Nat) : Option Nat :=
  pyFindAux needle (hay.length + 1 - start) (hay.drop start) start

/-- `hay.find(needle, start)` with Python's `-1` sentinel. -/
def findInt (needle hay : List Char) (start : Nat) : Int :=
  match pyFind needle hay start with
  | some i => (i : Int)
  | none => -1

/-- `discard_courses(course, start_idx, page_text)`: discard when the first
(lowered) course word is a connective, or when one occurs in the four
characters before `start_idx` (Python slicing semantics: a negative
`start_idx`, the `find` failure sentinel, slices from the end). -/
def discard_courses (course : List Char) (startIdx : Int)
    (pageText : List Char) : Bool :=
  let cw := pySplit (course.map lowerC)
  if cw.length > 0 ∧ cw.headD [] ∈ (["of", "in", "and", "&"] : List String).map String.data
  then true
  else
    let cs := (pySubI pageText (max 0 (startIdx - 4)) startIdx).map lowerC
    containsSub "of".data cs || containsSub "in".data cs ||
    containsSub "and".data cs || containsSub "&".data cs

/-- A `\b`-delimited occurrence of the literal `w` at position `p` of `t`:
the literal starts there and the word-ness changes at both edges (at the
string ends, a boundary iff the adjacent literal character is a word
character). -/
def wordAt (w t : List Char) (p : Nat) : Bool :=
  startsWithCh w (t.drop p) &&
  (if p = 0 then isWordC (w.headD 'x')
   else (isWordC (t.getD (p - 1) 'x') != isWordC (w.headD 'x'))) &&
  (if t.length ≤ p + w.length then isWordC (w.getD (w.length - 1) 'x')
   else (isWordC (w.getD (w.length - 1) 'x')
      != isWordC (t.getD (p + w.length) 'x')))

/-- `re.search(r'\b…\b', t)` existence for a literal `w`. -/
def containsWordB (w t : List Char) : Bool :=
  (List.range (t.length + 1)).any (fun p => wordAt w t p)

/-- `contains_in_before_index(page_text, start_idx)`: a `\b`-delimited
`in`/`of`/`an`/`&` — or any `&` — in the four lowered characters before
`start_idx`. -/
def contains_in_before_index (pageText : List Char) (startIdx : Int) : Bool :=
  let sub := (pySubI pageText (max 0 (startIdx - 4)) startIdx).map lowerC
  containsWordB "in".data sub || containsWordB "of".data sub ||
  containsWordB "an".data sub || containsWordB "&".data sub ||
  containsSub "&".data sub

/-- One record of the fuzzy pass of `sliding_window_match` (`Course` and
`Page_number` pass-through fields omitted; offsets are signed because the
`find` sentinel `-1` flows into them). -/
structure FuzzyRec where
  s : Int
  e : Int
  text : List Char
  confPct : Nat
deriving DecidableEq, Repr

/-- Outcome of the fuzzy pass for one course variant: a crash inside
`trim_by_words` (`IndexError`), a `continue` (discarded candidate), an
appended match, or a low-confidence record. -/
inductive FuzzyOut where
  | crash
  | skipped
  | emitted (r : FuzzyRec)
  | low (best : List Char) (confPct : Nat)
deriving DecidableEq, Repr

/-- The emission block of the fuzzy pass for one course variant: scan the
windows, and when the best confidence reaches 0.80 emit the (possibly
`trim_by_words`-trimmed) best window located with `find`, unless
`discard_courses` or `contains_in_before_index` rejects it; otherwise record
a low-confidence candidate. The lab-sibling block of this pass only rebinds
locals that are overwritten before any use and is dropped here.
`courseNames` is the `course_name` list argument of `sliding_window_match`
(joined for the boundary checks of the untrimmed branch — the source
compares against the full list, not the variant). -/
def fuzzyEmitOneVariant (pageText course : List Char)
    (courseNames : List (List Char)) (curPos : Nat) : FuzzyOut :=
  if 80 ≤ (runScan course (pySplit pageText) curPos).maxConf then
    if (stripSpecial course).length
        < (stripSpecial (runScan course (pySplit pageText) curPos).best).length then
      match trim_by_words course (runScan course (pySplit pageText) curPos).best with
      | none => FuzzyOut.crash
      | some bt =>
        if discard_courses bt
            (findInt bt pageText
              (startIdxInText (pySplit pageText)
                (runScan course (pySplit pageText) curPos).idx))
            pageText then FuzzyOut.skipped
        else if contains_in_before_index pageText
            (findInt bt pageText
              (startIdxInText (pySplit pageText)
                (runScan course (pySplit pageText) curPos).idx)) then
          FuzzyOut.skipped
        else
          FuzzyOut.emitted ⟨findInt bt pageText
              (startIdxInText (pySplit pageText)
                (runScan course (pySplit pageText) curPos).idx),
            findInt bt pageText
              (startIdxInText (pySplit pageText)
                (runScan course (pySplit pageText) curPos).idx) + bt.length,
            bt, (runScan course (pySplit pageText) curPos).maxConf⟩
    else
      if (((pySplit (runScan course (pySplit pageText) curPos).best).headD []).any
            (fun c => c = '+')
          ∧ ¬ ((pySplit (joinSpace courseNames)).headD []).any (fun c => c = '+'))
        ∨ (((pySplit (runScan course (pySplit pageText) curPos).best).getLastD []).any
            (fun c => c = '+')
          ∧ ¬ ((pySplit (joinSpace courseNames)).getLastD []).any (fun c => c = '+'))
        ∨ (((pySplit (runScan course (pySplit pageText) curPos).best).headD []).length = 1
          ∧ 1 < ((pySplit (joinSpace courseNames)).headD []).length)
        ∨ (((pySplit (runScan course (pySplit pageText) curPos).best).getLastD []).length = 1
          ∧ 1 < ((pySplit (joinSpace courseNames)).getLastD []).length) then
        match trim_by_words course (runScan course (pySplit pageText) curPos).best with
        | none => FuzzyOut.crash
        | some bt =>
          if discard_courses (runScan course (pySplit pageText) curPos).best
              (findInt bt pageText
                (startIdxInText (pySplit pageText)
                  (runScan course (pySplit pageText) curPos).idx))
              pageText then FuzzyOut.skipped
          else if contains_in_before_index pageText
              (findInt bt pageText
                (startIdxInText (pySplit pageText)
                  (runScan course (pySplit pageText) curPos).idx)) then
            FuzzyOut.skipped
          else
            FuzzyOut.emitted ⟨findInt bt pageText
                (startIdxInText (pySplit pageText)
                  (runScan course (pySplit pageText) curPos).idx),
              findInt bt pageText
                (startIdxInText (pySplit pageText)
                  (runScan course (pySplit pageText) curPos).idx) + bt.length,
              bt, (runScan course (pySplit pageText) curPos).maxConf⟩
      else
        if discard_courses (runScan course (pySplit pageText) curPos).best
            (findInt (runScan course (pySplit pageText) curPos).best pageText
              (startIdxInText (pySplit pageText)
                (runScan course (pySplit pageText) curPos).idx))
            pageText then FuzzyOut.skipped
        else if contains_in_before_index pageText
            (findInt (runScan course (pySplit pageText) curPos).best pageText
              (startIdxInText (pySplit pageText)
                (runScan course (pySplit pageText) curPos).idx)) then
          FuzzyOut.skipped
        else
          FuzzyOut.emitted ⟨findInt (runScan course (pySplit pageText) curPos).best
              pageText
              (startIdxInText (pySplit pageText)
                (runScan course (pySplit pageText) curPos).idx),
            findInt (runScan course (pySplit pageText) curPos).best pageText
              (startIdxInText (pySplit pageText)
                (runScan course (pySplit pageText) curPos).idx)
              + ((runScan course (pySplit pageText) curPos).best).length,
            (runScan course (pySplit pageText) curPos).best,
            (runScan course (pySplit pageText) curPos).maxConf⟩
  else
    FuzzyOut.low (runScan course (pySplit pageText) curPos).best
      (runScan course (pySplit pageText) curPos).maxConf

/-- The character-window fallback loop of `match_entity` (state
`(max_confidence·100, best_match)`): slide a `len(cleaned_entry)`-character
window over the raw page text, keep the best `calculate_confidence` of the
cleaned window, and break when a window's confidence is exactly 1.0 (this
break is live — there is no `> 0.90` guard before it in the fallback). -/
def charScanAux (cleanF : List Char → List Char)
    (pageText cleanedEntry : List Char) : Nat → Nat → (Nat × List Char) →
    (Nat × List Char)
  | 0, _, st => st
  | f + 1, i, (mx, best) =>
    let window := pySub pageText i (i + cleanedEntry.length)
    let conf := calculate_confidence (cleanF window) cleanedEntry
    let st' := if mx < conf then (conf, window) else (mx, best)
    if conf = 100 then st'
    else charScanAux cleanF pageText cleanedEntry f (i + 1) st'

/-- The character-window scan of `match_entity`'s fallback
(`clean_text`, an external helper not in this repository, is a
parameter). -/
def charScan (cleanF : List Char → List Char)
    (pageText cleanedEntry : List Char) : Nat × List Char :=
  charScanAux cleanF pageText cleanedEntry
    (pageText.length + 1 - cleanedEntry.length) 0 (0, [])

/-- The emission step of `match_entity`'s character-window fallback:
when the best confidence reaches 0.85, add the span of the (possibly
trimmed) best window located with `find`; below 0.85 nothing is added.
`none` is the `IndexError` inside `trim_by_words`. -/
def matchEntityFallback (cleanF : List Char → List Char)
    (pageText entry : List Char) : Option (List (Int × Int)) :=
  if 85 ≤ (charScan cleanF pageText (cleanF entry)).1 then
    if (despace entry).length
        < (despace (charScan cleanF pageText (cleanF entry)).2).length then
      match trim_by_words entry (charScan cleanF pageText (cleanF entry)).2 with
      | none => none
      | some bt =>
        some [(findInt bt pageText 0, findInt bt pageText 0 + bt.length)]
    else
      some [(findInt (charScan cleanF pageText (cleanF entry)).2 pageText 0,
        findInt (charScan cleanF pageText (cleanF entry)).2 pageText 0
          + ((charScan cleanF pageText (cleanF entry)).2).length)]
  else some []

/-! ### MARKER: further definitions are inserted above this line -/

/-! ### Theorems -/

/-- Elements in the `takeWhile` prefix satisfy the predicate. -/
theorem takeWhile_getD_true (p : Char → Bool) (l : List Char) (i : Nat) (dflt : Char)
    (h : i < (l.takeWhile p).length) : p (l.getD i dflt) = true := by
  induction l generalizing i with
  | nil => simp [List.takeWhile] at h
  | cons a as ih =>
    by_cases hpa : p a = true
    · cases i with
      | zero => simpa [List.getD]
      | succ j =>
        simp only [List.takeWhile, hpa] at h
        simp only [List.length_cons] at h
        exact ih j (by omega)
    · simp [List.takeWhile, hpa] at h

/-- The element just past the `takeWhile` prefix falsifies the predicate. -/
theorem takeWhile_getD_false (p : Char → Bool) (l : List Char) (dflt : Char)
    (h : (l.takeWhile p).length < l.length) :
    p (l.getD (l.takeWhile p).length dflt) = false := by
  induction l with
  | nil => simp at h
  | cons a as ih =>
    by_cases hpa : p a = true
    · simp only [List.takeWhile, hpa, List.length_cons] at h ⊢
      simpa using ih (by omega)
    · simp [List.takeWhile, hpa, List.getD, Bool.not_eq_true] at h ⊢

/-- `takeWhile` never exceeds the list. -/
theorem takeWhile_length_le (p : Char → Bool) (l : List Char) :
    (l.takeWhile p).length ≤ l.length := by
  induction l with
  | nil => simp
  | cons a as ih =>
    by_cases hpa : p a = true
    · simp only [List.takeWhile, hpa]; simp; omega
    · simp [List.takeWhile, hpa]

/-- If the whole list satisfies the predicate, `takeWhile` keeps it all. -/
theorem takeWhile_length_of_all (p : Char → Bool) (l : List Char)
    (h : ∀ x ∈ l, p x = true) : (l.takeWhile p).length = l.length := by
  induction l with
  | nil => simp
  | cons a as ih =>
    have hpa : p a = true := h a (by simp)
    simp only [List.takeWhile, hpa]
    simp only [List.length_cons]
    rw [ih (fun x hx => h x (by simp [hx]))]

/-- Length of a Python slice for an in-range start. -/
theorem pySub_length (t : List Char) (s e : Nat) (hs : s ≤ t.length) :
    (pySub t s e).length = min e t.length - s := by
  simp [pySub, List.length_take, List.length_drop]
  omega

/-- A Python slice element, read back in the base list. -/
theorem pySub_getD (t : List Char) (s e i : Nat) (dflt : Char)
    (h : i < (pySub t s e).length) :
    (pySub t s e).getD i dflt = t.getD (s + i) dflt := by
  simp only [pySub] at h ⊢
  rw [List.getD_eq_getElem?_getD, List.getD_eq_getElem?_getD]
  rw [List.length_take, List.length_drop] at h
  rw [List.getElem?_take_of_lt (by omega), List.getElem?_drop]

/-- The left snap never moves right. -/
theorem snapL_le (t : List Char) (p : Nat) : snapL t p ≤ p := by
  induction p with
  | zero => simp [snapL]
  | succ q ih =>
    rw [snapL]
    split
    · omega
    · omega

/-- The left snap is monotone. -/
theorem snapL_mono (t : List Char) {p q : Nat} (h : p ≤ q) :
    snapL t p ≤ snapL t q := by
  induction q with
  | zero =>
    have : p = 0 := by omega
    subst this; exact le_refl _
  | succ r ih =>
    rcases Nat.lt_or_ge p (r + 1) with hlt | hge
    · have hr : snapL t p ≤ snapL t r := ih (by omega)
      conv_rhs => rw [snapL]
      split
      · exact hr
      · exact le_trans hr (le_trans (snapL_le t r) (by omega))
    · have : p = r + 1 := by omega
      subst this; exact le_refl _

/-- The left snap lands on a space boundary (or at 0) for in-range inputs. -/
theorem snapL_boundary (t : List Char) (p : Nat) (hp : p < t.length) :
    snapL t p = 0 ∨ t.getD (snapL t p - 1) ' ' = ' ' := by
  induction p with
  | zero => left; simp [snapL]
  | succ q ih =>
    rw [snapL]
    split
    · exact ih (by omega)
    · rename_i hcond
      right
      push_neg at hcond
      have := hcond (by omega)
      simpa using this

/-- Characters strictly between the left snap target and the source are
non-space. -/
theorem snapL_nonspace (t : List Char) (p i : Nat)
    (h1 : snapL t p ≤ i) (h2 : i < p) : t.getD i ' ' ≠ ' ' := by
  induction p with
  | zero => omega
  | succ q ih =>
    rw [snapL] at h1
    revert h1
    split
    · intro h1
      rename_i hcond
      rcases Nat.lt_or_ge i q with hlt | hge
      · exact ih h1 hlt
      · have : i = q := by omega
        subst this
        exact hcond.2
    · intro h1; omega

/-- Inputs at or past the end of the text are left unchanged by the left
snap. -/
theorem snapL_ge_len (t : List Char) (p : Nat) (hp : t.length ≤ p) :
    snapL t p = p := by
  cases p with
  | zero => simp [snapL]
  | succ q =>
    rw [snapL]
    split
    · omega
    · rfl

/-- The fuel-based right snap satisfies the loop's unfolding equation. -/
theorem snapR_eq (t : List Char) (e : Nat) :
    snapR t e =
      if e < t.length ∧ 0 < e ∧ t.getD e ' ' ≠ ' ' then snapR t (e + 1) else e := by
  unfold snapR
  rcases Nat.eq_zero_or_pos (t.length - e) with h0 | hpos
  · rw [h0]
    have hcf : ¬ (e < t.length ∧ 0 < e ∧ t.getD e ' ' ≠ ' ') := by
      intro hcon
      omega
    rw [if_neg hcf]
    rfl
  · obtain ⟨f, hf⟩ : ∃ f, t.length - e = f + 1 := ⟨t.length - e - 1, by omega⟩
    have hfe : t.length - (e + 1) = f := by omega
    rw [hf, hfe]
    rfl

/-- The right snap never moves left (fuel version). -/
theorem snapRAux_ge (t : List Char) (f : Nat) : ∀ e, e ≤ snapRAux t f e := by
  induction f with
  | zero => intro e; exact le_refl _
  | succ g ih =>
    intro e
    rw [snapRAux]
    split
    · have := ih (e + 1)
      omega
    · exact le_refl _

/-- The right snap never moves left. -/
theorem snapR_ge (t : List Char) (e : Nat) : e ≤ snapR t e :=
  snapRAux_ge t (t.length - e) e

/-- The right snap stays within the text (fuel version). -/
theorem snapRAux_le_len (t : List Char) (f : Nat) :
    ∀ e, e ≤ t.length → snapRAux t f e ≤ t.length := by
  induction f with
  | zero => intro e h; exact h
  | succ g ih =>
    intro e h
    rw [snapRAux]
    split
    · rename_i hc
      exact ih (e + 1) (by omega)
    · exact h

/-- The right snap stays within the text for in-range inputs. -/
theorem snapR_le_len (t : List Char) (e : Nat) (h : e ≤ t.length) :
    snapR t e ≤ t.length :=
  snapRAux_le_len t (t.length - e) e h

/-- Stop condition of the right snap (fuel version, with enough fuel). -/
theorem snapRAux_stop (t : List Char) (f : Nat) :
    ∀ e, t.length ≤ e + f →
      snapRAux t f e = 0 ∨ t.length ≤ snapRAux t f e ∨
        t.getD (snapRAux t f e) ' ' = ' ' := by
  induction f with
  | zero =>
    intro e h
    right; left
    simpa [snapRAux] using (by omega : t.length ≤ e)
  | succ g ih =>
    intro e h
    rw [snapRAux]
    split
    · exact ih (e + 1) (by omega)
    · rename_i hc
      push_neg at hc
      rcases Nat.lt_or_ge e t.length with hlt | hge
      · rcases Nat.eq_zero_or_pos e with h0 | hpos
        · left; exact h0
        · right; right
          have := hc hlt hpos
          simpa using this
      · right; left; exact hge

/-- The right snap stops at 0, at or past the end, or on a space. -/
theorem snapR_stop (t : List Char) (e : Nat) :
    snapR t e = 0 ∨ t.length ≤ snapR t e ∨ t.getD (snapR t e) ' ' = ' ' :=
  snapRAux_stop t (t.length - e) e (by omega)

/-- Characters between the source and the right snap target are non-space
(fuel version). -/
theorem snapRAux_nonspace (t : List Char) (f : Nat) :
    ∀ e i, e ≤ i → i < snapRAux t f e → t.getD i ' ' ≠ ' ' := by
  induction f with
  | zero =>
    intro e i h1 h2
    simp [snapRAux] at h2
    omega
  | succ g ih =>
    intro e i h1 h2
    rw [snapRAux] at h2
    revert h2
    split
    · intro h2
      rename_i hc
      rcases Nat.lt_or_ge i (e + 1) with hlt | hge
      · have hie : i = e := by omega
        subst hie
        exact hc.2.2
      · exact ih (e + 1) i hge h2
    · intro h2
      omega

/-- Characters between the source and the right snap target are non-space. -/
theorem snapR_nonspace (t : List Char) (e i : Nat)
    (h1 : e ≤ i) (h2 : i < snapR t e) : t.getD i ' ' ≠ ' ' :=
  snapRAux_nonspace t (t.length - e) e i h1 h2

/-- `snapR` fixes 0. -/
theorem snapR_zero (t : List Char) : snapR t 0 = 0 := by
  rw [snapR_eq]
  simp

/-- `snapR` fixes inputs at or past the end of the text. -/
theorem snapR_ge_len (t : List Char) (e : Nat) (h : t.length ≤ e) :
    snapR t e = e := by
  rw [snapR_eq]
  split
  · omega
  · rfl

/-- `dropWhile` length in terms of `takeWhile` length. -/
theorem dropWhile_length (p : Char → Bool) (l : List Char) :
    (l.dropWhile p).length = l.length - (l.takeWhile p).length := by
  have h := congrArg List.length (List.takeWhile_append_dropWhile (p := p) (l := l))
  rw [List.length_append] at h
  omega

/-- Shape of any accepted `correctData` output: both offsets are snap
results. -/
theorem correctData_shape (t : List Char) (s e c d : Nat)
    (h : correctData s e t = some (c, d)) :
    ∃ s1 e1, c = snapL t s1 ∧ d = snapR t e1 ∧ snapL t s1 ≤ snapR t e1 := by
  simp only [correctData] at h
  split at h
  all_goals split at h
  any_goals exact Option.noConfusion h
  all_goals
    rename_i hle
    cases Option.some.inj h
    exact ⟨_, _, rfl, rfl, hle⟩

/-- Case analysis of `correctData` on the content of `text[start:end]`:
either the slice has a first non-whitespace character at `p` (then the
corrected start is `snapL p`), or it is non-empty pure whitespace, or it is
empty. -/
theorem correctData_char (t : List Char) (s e c d : Nat) (hs : s < t.length)
    (h : correctData s e t = some (c, d)) :
    (∃ p, s ≤ p ∧ p < min e t.length ∧
        (∀ i, s ≤ i → i < p → pyWS (t.getD i ' ') = true) ∧
        pyWS (t.getD p ' ') = false ∧ c = snapL t p)
  ∨ (s < min e t.length ∧
        (∀ i, s ≤ i → i < min e t.length → pyWS (t.getD i ' ') = true) ∧
        c = snapL t (min e t.length) ∧ d = snapR t (e - (min e t.length - s)))
  ∨ (e ≤ s ∧ c = snapL t s ∧ d = snapR t e) := by
  have hn : (pySub t s e).length = min e t.length - s :=
    pySub_length t s e (by omega)
  rcases le_or_lt e s with hes | hse
  · -- empty slice
    right; right
    refine ⟨hes, ?_⟩
    have hsub : pySub t s e = [] := by
      have hz : (pySub t s e).length = 0 := by omega
      exact List.length_eq_zero.mp hz
    have hcondF : ¬((pySub t s e).length ≠
        ((((pySub t s e).dropWhile pyWS).reverse).dropWhile pyWS).length) := by
      rw [hsub]; simp
    simp only [correctData] at h
    rw [if_neg hcondF, if_neg hcondF] at h
    split at h
    · cases Option.some.inj h
      exact ⟨rfl, rfl⟩
    · exact Option.noConfusion h
  · -- non-empty slice
    have hnpos : 0 < (pySub t s e).length := by omega
    have hkle : ((pySub t s e).takeWhile pyWS).length ≤ (pySub t s e).length :=
      takeWhile_length_le pyWS (pySub t s e)
    rcases Nat.eq_or_lt_of_le hkle with hkeq | hklt
    · -- all whitespace
      right; left
      have hall : ∀ i, s ≤ i → i < min e t.length → pyWS (t.getD i ' ') = true := by
        intro i hi1 hi2
        have h1 : i - s < ((pySub t s e).takeWhile pyWS).length := by omega
        have h2 := takeWhile_getD_true pyWS (pySub t s e) (i - s) ' ' h1
        rw [pySub_getD t s e (i - s) ' ' (by omega)] at h2
        have hadd : s + (i - s) = i := by omega
        rwa [hadd] at h2
      refine ⟨by omega, hall, ?_⟩
      have hrs : ((pySub t s e).reverse.takeWhile pyWS).length = (pySub t s e).length := by
        rw [takeWhile_length_of_all pyWS (pySub t s e).reverse ?_]
        · simp
        · intro x hx
          rw [List.mem_reverse] at hx
          rcases List.mem_iff_getElem.mp hx with ⟨j, hj, hxe⟩
          have h1 : j < ((pySub t s e).takeWhile pyWS).length := by omega
          have h2 := takeWhile_getD_true pyWS (pySub t s e) j ' ' h1
          rw [List.getD_eq_getElem?_getD, List.getElem?_eq_getElem hj] at h2
          simpa [hxe] using h2
      have hdw : ((pySub t s e).dropWhile pyWS).length = 0 := by
        rw [dropWhile_length]; omega
      have hstriplen :
          ((((pySub t s e).dropWhile pyWS).reverse).dropWhile pyWS).length = 0 := by
        have hnil : ((pySub t s e).dropWhile pyWS) = [] := List.length_eq_zero.mp hdw
        simp [hnil]
      have hne : (pySub t s e).length ≠
          ((((pySub t s e).dropWhile pyWS).reverse).dropWhile pyWS).length := by
        omega
      simp only [correctData] at h
      rw [if_pos hne, if_pos hne] at h
      rw [hkeq, hrs] at h
      have hslen : s + (pySub t s e).length = min e t.length := by omega
      have helen : e - (pySub t s e).length = e - (min e t.length - s) := by omega
      rw [hslen, helen] at h
      split at h
      · cases Option.some.inj h
        exact ⟨rfl, rfl⟩
      · exact Option.noConfusion h
    · -- has a first non-whitespace character
      left
      refine ⟨s + ((pySub t s e).takeWhile pyWS).length, by omega, by omega, ?_, ?_, ?_⟩
      · intro i hi1 hi2
        have h1 : i - s < ((pySub t s e).takeWhile pyWS).length := by omega
        have h2 := takeWhile_getD_true pyWS (pySub t s e) (i - s) ' ' h1
        rw [pySub_getD t s e (i - s) ' ' (by omega)] at h2
        have hadd : s + (i - s) = i := by omega
        rwa [hadd] at h2
      · have h2 := takeWhile_getD_false pyWS (pySub t s e) ' ' (by omega)
        rw [pySub_getD t s e ((pySub t s e).takeWhile pyWS).length ' ' (by omega)] at h2
        exact h2
      · -- corrected start is snapL (s + k) whether or not the strip branch ran
        simp only [correctData] at h
        by_cases hcond : (pySub t s e).length =
            ((((pySub t s e).dropWhile pyWS).reverse).dropWhile pyWS).length
        · -- no strip, so there is no leading whitespace: k = 0
          have hdw : ((pySub t s e).dropWhile pyWS).length
              = (pySub t s e).length - ((pySub t s e).takeWhile pyWS).length :=
            dropWhile_length pyWS (pySub t s e)
          have hsd : ((((pySub t s e).dropWhile pyWS).reverse).dropWhile pyWS).length
              ≤ ((pySub t s e).dropWhile pyWS).length := by
            have hx := dropWhile_length pyWS (((pySub t s e).dropWhile pyWS).reverse)
            rw [hx, List.length_reverse]
            omega
          have hk0 : ((pySub t s e).takeWhile pyWS).length = 0 := by omega
          have hnotne : ¬((pySub t s e).length ≠
              ((((pySub t s e).dropWhile pyWS).reverse).dropWhile pyWS).length) :=
            fun hcontra => hcontra hcond
          rw [if_neg hnotne, if_neg hnotne] at h
          rw [hk0, Nat.add_zero]
          split at h
          · cases Option.some.inj h
            rfl
          · exact Option.noConfusion h
        · rw [if_pos hcond, if_pos hcond] at h
          split at h
          · cases Option.some.inj h
            rfl
          · exact Option.noConfusion h

/-- An accepted corrected start never exceeds the text length. -/
theorem corrStart_le_len (t : List Char) (s e c d : Nat) (hs : s < t.length)
    (h : correctData s e t = some (c, d)) : c ≤ t.length := by
  rcases correctData_char t s e c d hs h with
    ⟨p, _, hplt, _, _, hc⟩ | ⟨_, _, hc, _⟩ | ⟨_, hc, _⟩
  · have := snapL_le t p
    omega
  · have := snapL_le t (min e t.length)
    omega
  · have := snapL_le t s
    omega

/-- An accepted corrected start is 0, at a space boundary, or exactly the
text length. -/
theorem corrStart_boundary (t : List Char) (s e c d : Nat) (hs : s < t.length)
    (h : correctData s e t = some (c, d)) :
    c = 0 ∨ t.getD (c - 1) ' ' = ' ' ∨ c = t.length := by
  rcases correctData_char t s e c d hs h with
    ⟨p, _, hplt, _, _, hc⟩ | ⟨_, _, hc, _⟩ | ⟨_, hc, _⟩
  · subst hc
    rcases snapL_boundary t p (by omega) with h0 | hsp
    · left; exact h0
    · right; left; exact hsp
  · subst hc
    rcases le_or_lt t.length (min e t.length) with hge | hlt
    · right; right
      rw [snapL_ge_len t _ hge]
      omega
    · rcases snapL_boundary t (min e t.length) hlt with h0 | hsp
      · left; exact h0
      · right; left; exact hsp
  · subst hc
    rcases snapL_boundary t s hs with h0 | hsp
    · left; exact h0
    · right; left; exact hsp

/-- Crossing lemma: if an entity with a later (or equal) original start is
corrected to span `[c, d)`, that span never strictly contains the corrected
start of an entity with an earlier original start. This is the geometric
fact behind the no-overlap invariant of the conflict resolver. -/
theorem corr_no_cross (t : List Char) (sy ey sE eE ys ye c d : Nat)
    (hsy : sy < t.length) (hsE : sE < t.length) (hle : sy ≤ sE)
    (hY : correctData sy ey t = some (ys, ye))
    (hE : correctData sE eE t = some (c, d))
    (h1 : c < ys) (h2 : ys < d) : False := by
  have hylen : ys ≤ t.length := corrStart_le_len t sy ey ys ye hsy hY
  rcases correctData_char t sE eE c d hsE hE with
    ⟨p, hsp, hplt, _, hnws, hc⟩ | ⟨hsltE, hwinE, hcW, hdW⟩ | ⟨heE, hcE, hdE⟩
  · -- E has a first non-whitespace character at p; every earlier corrected
    -- start is ≤ snapL p
    have hyle : ys ≤ c := by
      rcases correctData_char t sy ey ys ye hsy hY with
        ⟨q, hsq, hqlt, hwinY, _, hys⟩ | ⟨hsltY, hwinY, hysW, _⟩ | ⟨_, hysE, _⟩
      · have hqp : q ≤ p := by
          by_contra hqp
          push_neg at hqp
          have hws := hwinY p (by omega) (by omega)
          rw [hws] at hnws
          cases hnws
        subst hc hys
        exact snapL_mono t hqp
      · have hmp : min ey t.length ≤ p := by
          by_contra hmp
          push_neg at hmp
          have hws := hwinY p (by omega) (by omega)
          rw [hws] at hnws
          cases hnws
        subst hc hysW
        exact snapL_mono t hmp
      · subst hc hysE
        exact snapL_mono t (by omega)
    omega
  · -- E's slice is non-empty pure whitespace
    rcases le_or_lt t.length (min eE t.length) with hge | hlt
    · -- the whitespace window reaches the end of the text: c = len
      rw [snapL_ge_len t _ hge] at hcW
      omega
    · -- the window ends inside the text: the whole corrected span is
      -- space-free, but ys - 1 must carry a space
      have hme : min eE t.length = eE := by omega
      have hcv : c = snapL t eE := by rw [hcW, hme]
      have hdv : d = snapR t sE := by
        rw [hdW, hme]
        congr 1
        omega
      have hdlen : d ≤ t.length := by
        rw [hdv]; exact snapR_le_len t sE (by omega)
      have hy1 : t.getD (ys - 1) ' ' = ' ' := by
        rcases corrStart_boundary t sy ey ys ye hsy hY with h0 | hsp | hL
        · omega
        · exact hsp
        · omega
      have hns : t.getD (ys - 1) ' ' ≠ ' ' := by
        rcases lt_or_le (ys - 1) eE with hlt2 | hge2
        · exact snapL_nonspace t eE (ys - 1) (by omega) hlt2
        · refine snapR_nonspace t sE (ys - 1) (by omega) (by omega)
      exact hns hy1
  · -- E's slice is empty (inverted offsets): span is within one word
    have hdlen : d ≤ t.length := by
      rw [hdE]; exact snapR_le_len t eE (by omega)
    have hy1 : t.getD (ys - 1) ' ' = ' ' := by
      rcases corrStart_boundary t sy ey ys ye hsy hY with h0 | hsp | hL
      · omega
      · exact hsp
      · omega
    have hns : t.getD (ys - 1) ' ' ≠ ' ' := by
      rcases lt_or_le (ys - 1) sE with hlt2 | hge2
      · exact snapL_nonspace t sE (ys - 1) (by omega) hlt2
      · refine snapR_nonspace t eE (ys - 1) (by omega) (by omega)
    exact hns hy1

/-- The candidate-vs-incumbent overlap test agrees with `entOlap`. -/
theorem entOlap_new_iff (a : Ent) (c d : Nat) (l : String) :
    entOlap a ⟨c, d, l⟩ ↔ olap c d a = true := by
  simp only [entOlap, olap, Bool.and_eq_true, decide_eq_true_eq]
  omega

/-- Overlap is symmetric. -/
theorem entOlap_comm (a b : Ent) : entOlap a b ↔ entOlap b a := by
  unfold entOlap
  omega

/-- If an element still occurs after erasing itself once, the pairwise
relation holds reflexively at it (it occurred at two distinct positions). -/
theorem pairwise_self_of_mem_erase (R : Ent → Ent → Prop) (g : List Ent) (x : Ent)
    (hpw : g.Pairwise R) (hx : x ∈ g.erase x) : R x x := by
  induction g with
  | nil => simp [List.erase] at hx
  | cons a as ih =>
    rw [List.erase_cons] at hx
    by_cases hax : a = x
    · rw [if_pos (by simp [hax])] at hx
      have := (List.pairwise_cons.mp hpw).1 x hx
      rwa [hax] at this
    · rw [if_neg (by simp [hax])] at hx
      rcases List.mem_cons.mp hx with h1 | h2
      · exact absurd h1.symm hax
      · exact ih (List.pairwise_cons.mp hpw).2 h2

/-- Among a pairwise non-overlapping group whose members all come from
corrections of earlier-starting originals, at most one member can overlap
the correction of a new (later-starting) original: the crossing lemma rules
out a span straddling two disjoint incumbents. -/
theorem overlap_unique (t : List Char) (b s e c d : Nat) (g : List Ent)
    (hpw : g.Pairwise (fun a b => ¬ entOlap a b))
    (hprov : ∀ x ∈ g, FromCorr t b x)
    (hble : b ≤ s) (hs : s < t.length)
    (hcorr : correctData s e t = some (c, d)) :
    ∀ x ∈ g, ∀ y ∈ g, olap c d x = true → olap c d y = true → x = y := by
  intro x hx y hy hox hoy
  by_cases hxy : x = y
  · exact hxy
  · exfalso
    have hsym : Symmetric (fun a b : Ent => ¬ entOlap a b) := by
      intro a b hab hba
      exact hab ((entOlap_comm a b).mpr hba)
    have hno : ¬ entOlap x y := List.Pairwise.forall hsym hpw hx hy hxy
    have hox' : c < x.e ∧ d > x.s := by
      simpa [olap] using hox
    have hoy' : c < y.e ∧ d > y.s := by
      simpa [olap] using hoy
    unfold entOlap at hno
    push_neg at hno
    rcases le_or_lt x.e y.s with hca | hcb
    · obtain ⟨sy, eyy, hb1, hs1, hc1⟩ := hprov y hy
      exact corr_no_cross t sy eyy s e y.s y.e c d hs1 hs (by omega) hc1 hcorr
        (by omega) (by omega)
    · have h2 : y.e ≤ x.s := by
        by_cases hcon : x.s < y.e
        · have := hno hcon; omega
        · omega
      obtain ⟨sx, exx, hb1, hs1, hc1⟩ := hprov x hx
      exact corr_no_cross t sx exx s e x.s x.e c d hs1 hs (by omega) hc1 hcorr
        (by omega) (by omega)

/-- `acceptDirect` is the identity when some incumbent already overlaps the
candidate span. -/
theorem acceptDirect_of_any (st : RState) (c d : Nat) (l : String)
    (h : st.group.any (olap c d) = true) : acceptDirect st c d l = st := by
  unfold acceptDirect
  split <;> rfl

set_option maxHeartbeats 1000000 in
/-- One resolver step preserves the no-overlap invariant together with the
provenance of every accepted span, for an entity starting no earlier than
all previously processed ones. -/
theorem procEnt_preserves (t : List Char) (st : RState) (ent : Ent) (b : Nat)
    (hb : b ≤ ent.s)
    (hpw : st.group.Pairwise (fun a b => ¬ entOlap a b))
    (hprov : ∀ x ∈ st.group, FromCorr t b x) :
    (procEnt t st ent).group.Pairwise (fun a b => ¬ entOlap a b) ∧
      ∀ x ∈ (procEnt t st ent).group, FromCorr t ent.s x := by
  have hmono : ∀ x ∈ st.group, FromCorr t ent.s x := by
    intro x hx
    obtain ⟨s0, e0, h1, h2, h3⟩ := hprov x hx
    exact ⟨s0, e0, by omega, h2, h3⟩
  have hP : procEnt t st ent = procEnt t st ent := rfl
  conv_lhs at hP => rw [procEnt.eq_def]
  split at hP
  · rw [← hP]; exact ⟨hpw, hmono⟩
  split at hP
  · rw [← hP]; exact ⟨hpw, hmono⟩
  split at hP
  · rw [← hP]; exact ⟨hpw, hmono⟩
  rename_i hlen
  have hslen : ent.s < t.length := by omega
  split at hP
  · rw [← hP]; exact ⟨hpw, hmono⟩
  rename_i c d hcorr
  obtain ⟨u1, u2, hcu, hdu, hlu⟩ := correctData_shape t ent.s ent.e c d hcorr
  have hcd : c ≤ d := by omega
  have hnewprov : FromCorr t ent.s ⟨c, d, ent.l⟩ :=
    ⟨ent.s, ent.e, le_refl _, hslen, hcorr⟩
  split at hP
  · -- no incumbent overlaps: direct acceptance
    rename_i hfind
    have hnool : ∀ a ∈ st.group, ¬ (olap c d a = true) :=
      fun a ha => List.find?_eq_none.mp hfind a ha
    unfold acceptDirect at hP
    split at hP
    · rw [← hP]; exact ⟨hpw, hmono⟩
    split at hP
    · rw [← hP]; exact ⟨hpw, hmono⟩
    rw [← hP]
    constructor
    · rw [List.pairwise_append]
      refine ⟨hpw, by simp, ?_⟩
      intro a ha b' hb'
      simp only [List.mem_singleton] at hb'
      subst hb'
      intro hov
      exact hnool a ha ((entOlap_new_iff a c d ent.l).mp hov)
    · intro y hy
      rcases List.mem_append.mp hy with h1 | h2
      · exact hmono y h1
      · simp only [List.mem_singleton] at h2
        subst h2
        exact hnewprov
  · -- an incumbent `x` overlaps: the branch taken decides
    rename_i x hfind
    have hxmem : x ∈ st.group := List.mem_of_find?_eq_some hfind
    have hxol : olap c d x = true := List.find?_some hfind
    have huniq := overlap_unique t b ent.s ent.e c d st.group hpw hprov hb hslen hcorr
    have hxol2 : c < x.e ∧ d > x.s := by
      simpa [olap] using hxol
    have hxse : x.s ≤ x.e := by
      obtain ⟨s0, e0, _, hs0, h3⟩ := hprov x hxmem
      obtain ⟨v1, v2, hv1, hv2, hv3⟩ := correctData_shape t s0 e0 x.s x.e h3
      omega
    have hEA : x.s < x.e →
        ((st.group.erase x ++ [(⟨c, d, ent.l⟩ : Ent)]).Pairwise (fun a b => ¬ entOlap a b) ∧
          ∀ y ∈ st.group.erase x ++ [(⟨c, d, ent.l⟩ : Ent)], FromCorr t ent.s y) := by
      intro hxne
      constructor
      · rw [List.pairwise_append]
        refine ⟨hpw.sublist (List.erase_sublist x st.group), by simp, ?_⟩
        intro a ha b' hb'
        simp only [List.mem_singleton] at hb'
        subst hb'
        intro hov
        have hamem := List.mem_of_mem_erase ha
        have haol : olap c d a = true := (entOlap_new_iff a c d ent.l).mp hov
        have hax : a = x := huniq a hamem x hxmem haol hxol
        subst hax
        have hRaa := pairwise_self_of_mem_erase _ st.group a hpw ha
        exact hRaa ⟨hxne, hxne⟩
      · intro y hy
        rcases List.mem_append.mp hy with h1 | h2
        · exact hmono y (List.mem_of_mem_erase h1)
        · simp only [List.mem_singleton] at h2
          subst h2
          exact hnewprov
    split at hP
    · -- identical span
      rename_i hss
      split at hP
      · rw [← hP]
        exact hEA (by omega)
      · rw [← hP]; exact ⟨hpw, hmono⟩
    rename_i hss
    split at hP
    · -- new entity inside incumbent: skipped
      rw [← hP]; exact ⟨hpw, hmono⟩
    rename_i hins
    split at hP
    · -- incumbent inside new entity: remove all with its span, append
      rename_i hcont
      rw [← hP]
      constructor
      · rw [List.pairwise_append]
        refine ⟨hpw.sublist (List.filter_sublist _), by simp, ?_⟩
        intro a ha b' hb'
        simp only [List.mem_singleton] at hb'
        subst hb'
        intro hov
        have hmf := List.mem_filter.mp ha
        have haol : olap c d a = true := (entOlap_new_iff a c d ent.l).mp hov
        have hax : a = x := huniq a hmf.1 x hxmem haol hxol
        subst hax
        have hppp := of_decide_eq_true hmf.2
        exact hppp ⟨rfl, rfl⟩
      · intro y hy
        rcases List.mem_append.mp hy with h1 | h2
        · exact hmono y (List.mem_filter.mp h1).1
        · simp only [List.mem_singleton] at h2
          subst h2
          exact hnewprov
    rename_i hcont
    have hnecd : c < d := by
      rcases Nat.eq_or_lt_of_le hcd with he | hlt2
      · exact absurd ⟨by omega, by omega⟩ hins
      · exact hlt2
    have hxne : x.s < x.e := by
      by_contra hcon
      push_neg at hcon
      exact hcont ⟨by omega, by omega⟩
    have hany : (st.group.erase x ++ [(⟨c, d, ent.l⟩ : Ent)]).any (olap c d) = true := by
      rw [List.any_eq_true]
      refine ⟨(⟨c, d, ent.l⟩ : Ent), by simp, ?_⟩
      simp only [olap, Bool.and_eq_true, decide_eq_true_eq]
      omega
    split at hP
    · -- higher priority: replace, then the direct-acceptance block is a no-op
      rw [acceptDirect_of_any _ _ _ ent.l hany] at hP
      rw [← hP]
      exact hEA hxne
    split at hP
    · -- lower priority: skipped
      rw [← hP]; exact ⟨hpw, hmono⟩
    split at hP
    · -- equal priority, strictly longer: replace, no-op tail
      rw [acceptDirect_of_any _ _ _ ent.l hany] at hP
      rw [← hP]
      exact hEA hxne
    · rw [← hP]; exact ⟨hpw, hmono⟩

/-- Folding a sorted entity list through the resolver keeps the group
pairwise non-overlapping. -/
theorem foldl_preserves (t : List Char) (es : List Ent) :
    ∀ (st : RState) (b : Nat),
    es.Pairwise (fun a b => a.s ≤ b.s) →
    (∀ x ∈ es, b ≤ x.s) →
    st.group.Pairwise (fun a b => ¬ entOlap a b) →
    (∀ x ∈ st.group, FromCorr t b x) →
    (es.foldl (procEnt t) st).group.Pairwise (fun a b => ¬ entOlap a b) := by
  induction es with
  | nil =>
    intro st b _ _ hpw _
    simpa using hpw
  | cons a as ih =>
    intro st b hsort hstart hpw hprov
    simp only [List.foldl_cons]
    have h1 := procEnt_preserves t st a b (hstart a (by simp)) hpw hprov
    exact ih (procEnt t st a) a.s (List.pairwise_cons.mp hsort).2
      (fun x hx => (List.pairwise_cons.mp hsort).1 x hx) h1.1 h1.2

/-- Membership in a stable insertion. -/
theorem mem_insEnt (x z : Ent) (l : List Ent) :
    z ∈ insEnt x l ↔ z = x ∨ z ∈ l := by
  induction l with
  | nil => simp [insEnt]
  | cons y ys ih =>
    simp only [insEnt]
    split
    · simp only [List.mem_cons, ih]
      tauto
    · simp only [List.mem_cons]


/-- Stable insertion preserves sortedness by start offset. -/
theorem insEnt_pairwise (x : Ent) (l : List Ent)
    (h : l.Pairwise (fun a b => a.s ≤ b.s)) :
    (insEnt x l).Pairwise (fun a b => a.s ≤ b.s) := by
  induction l with
  | nil => simp [insEnt]
  | cons y ys ih =>
    obtain ⟨hy, hys⟩ := List.pairwise_cons.mp h
    simp only [insEnt]
    split
    · rename_i hc
      rw [List.pairwise_cons]
      refine ⟨?_, ih hys⟩
      intro z hz
      rcases (mem_insEnt x z ys).mp hz with h1 | h2
      · subst h1; exact hc
      · exact hy z h2
    · rename_i hc
      rw [List.pairwise_cons]
      refine ⟨?_, h⟩
      intro z hz
      rcases List.mem_cons.mp hz with h1 | h2
      · subst h1; omega
      · have := hy z h2; omega

/-- The resolver's stable sort produces a list sorted by start offset. -/
theorem sortEnts_sorted (l : List Ent) :
    (sortEnts l).Pairwise (fun a b => a.s ≤ b.s) := by
  unfold sortEnts
  suffices h : ∀ acc : List Ent, acc.Pairwise (fun a b => a.s ≤ b.s) →
      (l.foldl (fun acc x => insEnt x acc) acc).Pairwise (fun a b => a.s ≤ b.s) by
    exact h [] (by simp)
  induction l with
  | nil => intro acc hacc; simpa using hacc
  | cons a as ih =>
    intro acc hacc
    simp only [List.foldl_cons]
    exact ih (insEnt a acc) (insEnt_pairwise a acc hacc)

/-- C1. For every page processed through the pipeline, the final accepted
entity-span set produced by the global entity conflict resolver
(`convert_entities_to_tuples`) contains no two spans `(start₁, end₁)` and
`(start₂, end₂)` with `start₁ < end₂ ∧ end₁ > start₂`: no overlapping pair
survives, for any input text and any input entity list. -/
theorem claim_C1_resolver_no_overlap (entities : List Ent) (t : List Char) :
    ∀ g ∈ convertEntitiesToTuples entities t,
      g.Pairwise (fun a b => ¬ (a.s < b.e ∧ a.e > b.s)) := by
  intro g hg
  unfold convertEntitiesToTuples at hg
  split at hg
  · simp at hg
  · simp only [List.mem_singleton] at hg
    subst hg
    exact foldl_preserves t (sortEnts entities) ⟨[], []⟩ 0
      (sortEnts_sorted entities) (fun x _ => Nat.zero_le x.s)
      (by simp) (by simp)

/-- Bound-free provenance of every span surviving the fold. -/
theorem foldl_prov (t : List Char) (es : List Ent) :
    ∀ (st : RState) (b : Nat),
    es.Pairwise (fun a b => a.s ≤ b.s) →
    (∀ x ∈ es, b ≤ x.s) →
    st.group.Pairwise (fun a b => ¬ entOlap a b) →
    (∀ x ∈ st.group, FromCorr t b x) →
    ∀ x ∈ (es.foldl (procEnt t) st).group,
      ∃ s0 e0, s0 < t.length ∧ correctData s0 e0 t = some (x.s, x.e) := by
  induction es with
  | nil =>
    intro st b _ _ _ hprov x hx
    obtain ⟨s0, e0, _, h2, h3⟩ := hprov x hx
    exact ⟨s0, e0, h2, h3⟩
  | cons a as ih =>
    intro st b hsort hstart hpw hprov
    simp only [List.foldl_cons]
    have h1 := procEnt_preserves t st a b (hstart a (by simp)) hpw hprov
    exact ih (procEnt t st a) a.s (List.pairwise_cons.mp hsort).2
      (fun x hx => (List.pairwise_cons.mp hsort).1 x hx) h1.1 h1.2

/-- C10 (counterexample to the claim as stated): on text `"ab"`, the entity
`(0, 0, "year")` is accepted unchanged, and its end offset 0 is neither the
text length nor the position of a space. -/
theorem claim_C10_counterexample :
    convertEntitiesToTuples [⟨0, 0, "year"⟩] ("ab".data) = [[⟨0, 0, "year"⟩]] ∧
      ¬ ((0 : Nat) = ("ab".data).length ∨ ("ab".data).getD 0 ' ' = ' ') := by
  constructor
  · decide
  · decide

/-- C10 (amended). Every entity span accepted into the output group of the
global entity conflict resolver is whitespace-snap aligned: its start is 0,
at or past the end of the text, or preceded by a space; its end is 0, at or
past the end of the text, or lies on a space; and spans whose whitespace
snap inverts the range were discarded (so start ≤ end). -/
theorem claim_C10_alignment (entities : List Ent) (t : List Char) :
    ∀ g ∈ convertEntitiesToTuples entities t, ∀ x ∈ g,
      (x.s = 0 ∨ t.length ≤ x.s ∨ t.getD (x.s - 1) ' ' = ' ') ∧
      (x.e = 0 ∨ t.length ≤ x.e ∨ t.getD x.e ' ' = ' ') ∧ x.s ≤ x.e := by
  intro g hg x hx
  unfold convertEntitiesToTuples at hg
  split at hg
  · simp at hg
  · simp only [List.mem_singleton] at hg
    subst hg
    obtain ⟨s0, e0, hs0, hc0⟩ := foldl_prov t (sortEnts entities) ⟨[], []⟩ 0
      (sortEnts_sorted entities) (fun y _ => Nat.zero_le y.s)
      (by simp) (by simp) x hx
    obtain ⟨u1, u2, hcu, hdu, hlu⟩ := correctData_shape t s0 e0 x.s x.e hc0
    refine ⟨?_, ?_, by omega⟩
    · rcases corrStart_boundary t s0 e0 x.s x.e hs0 hc0 with h0 | hsp | hL
      · exact Or.inl h0
      · exact Or.inr (Or.inr hsp)
      · exact Or.inr (Or.inl (le_of_eq hL.symm))
    · rcases snapR_stop t u2 with h0 | hlen2 | hsp
      · exact Or.inl (hdu ▸ h0)
      · exact Or.inr (Or.inl (hdu ▸ hlen2))
      · exact Or.inr (Or.inr (hdu ▸ hsp))

/-- C2 (counterexample to the claim as stated): two candidates with
identical offsets `(0,0)` and differing labels `"year"`/`"grade"` on text
`"ab"`: although `grade` has the higher `LabelPriority`, the resolver keeps
whichever candidate comes first in the input, so the output depends on the
order. -/
theorem claim_C2_counterexample :
    convertEntitiesToTuples [⟨0, 0, "year"⟩, ⟨0, 0, "grade"⟩] ("ab".data)
        = [[⟨0, 0, "year"⟩]] ∧
      convertEntitiesToTuples [⟨0, 0, "grade"⟩, ⟨0, 0, "year"⟩] ("ab".data)
        = [[⟨0, 0, "grade"⟩]] ∧
      labelPriority "grade" > labelPriority "year" := by
  refine ⟨by decide, by decide, by decide⟩

/-- Resolver step on an empty group: the corrected span is accepted
directly. -/
theorem procEnt_empty (t : List Char) (sp : List (Nat × Nat)) (ent : Ent) (c d : Nat)
    (h1 : ¬ (pySub t ent.s ent.e = [' ']))
    (h2 : ¬ (ent.l = "course" ∧ (pySub t ent.s ent.e).length ≤ 3))
    (h3 : ent.s < t.length)
    (hc : correctData ent.s ent.e t = some (c, d))
    (hsp : (c, d) ∉ sp) :
    procEnt t ⟨[], sp⟩ ent = ⟨[⟨c, d, ent.l⟩], sp ++ [(c, d)]⟩ := by
  rw [procEnt.eq_def]
  rw [if_neg h1, if_neg h2, if_neg (by omega : ¬ (ent.s ≥ t.length)), hc]
  show acceptDirect ⟨[], sp⟩ c d ent.l = _
  unfold acceptDirect
  rw [if_neg hsp]
  rfl

/-- Resolver step against a single incumbent with the identical (non-empty)
corrected span: the higher `LabelPriority` label survives, ties keep the
incumbent. -/
theorem procEnt_samespan (t : List Char) (sp : List (Nat × Nat)) (lx : String)
    (ent : Ent) (c d : Nat)
    (h1 : ¬ (pySub t ent.s ent.e = [' ']))
    (h2 : ¬ (ent.l = "course" ∧ (pySub t ent.s ent.e).length ≤ 3))
    (h3 : ent.s < t.length)
    (hc : correctData ent.s ent.e t = some (c, d))
    (hcd : c < d) :
    procEnt t ⟨[⟨c, d, lx⟩], sp⟩ ent =
      if labelPriority ent.l > labelPriority lx then ⟨[⟨c, d, ent.l⟩], sp⟩
      else ⟨[⟨c, d, lx⟩], sp⟩ := by
  rw [procEnt.eq_def]
  rw [if_neg h1, if_neg h2, if_neg (by omega : ¬ (ent.s ≥ t.length)), hc]
  have holx : olap c d ⟨c, d, lx⟩ = true := by
    simp only [olap, Bool.and_eq_true, decide_eq_true_eq]
    omega
  show (match ([(⟨c, d, lx⟩ : Ent)] : List Ent).find? (olap c d) with
    | none => acceptDirect ⟨[⟨c, d, lx⟩], sp⟩ c d ent.l
    | some x => _) = _
  rw [List.find?_cons_of_pos _ holx]
  show (if c = c ∧ d = d then _ else _) = _
  rw [if_pos ⟨rfl, rfl⟩]
  split
  · simp [List.erase_cons_head]
  · rfl

/-- C2 (amended). For two candidate entities with identical original
offsets and differing labels, fed alone to the resolver, the output retains
exactly the higher-`LabelPriority` label regardless of input order —
provided both candidates pass the pre-filters and their shared corrected
span is non-empty (if the corrected span is empty, the second candidate is
dropped as a duplicate and input order decides). -/
theorem claim_C2_priority (t : List Char) (s e : Nat) (l1 l2 : String) (c d : Nat)
    (hpr : labelPriority l1 > labelPriority l2)
    (hf1 : ¬ (pySub t s e = [' ']))
    (hf2 : ¬ (l1 = "course" ∧ (pySub t s e).length ≤ 3))
    (hf3 : ¬ (l2 = "course" ∧ (pySub t s e).length ≤ 3))
    (hs : s < t.length)
    (hc : correctData s e t = some (c, d))
    (hcd : c < d) :
    convertEntitiesToTuples [⟨s, e, l1⟩, ⟨s, e, l2⟩] t = [[⟨c, d, l1⟩]] ∧
      convertEntitiesToTuples [⟨s, e, l2⟩, ⟨s, e, l1⟩] t = [[⟨c, d, l1⟩]] := by
  have hsort1 : sortEnts [(⟨s, e, l1⟩ : Ent), ⟨s, e, l2⟩] = [⟨s, e, l1⟩, ⟨s, e, l2⟩] := by
    simp [sortEnts, insEnt]
  have hsort2 : sortEnts [(⟨s, e, l2⟩ : Ent), ⟨s, e, l1⟩] = [⟨s, e, l2⟩, ⟨s, e, l1⟩] := by
    simp [sortEnts, insEnt]
  have hstep1 : procEnt t ⟨[], []⟩ ⟨s, e, l1⟩ = ⟨[⟨c, d, l1⟩], [(c, d)]⟩ :=
    procEnt_empty t [] ⟨s, e, l1⟩ c d hf1 hf2 hs hc (by simp)
  have hstep2 : procEnt t ⟨[], []⟩ ⟨s, e, l2⟩ = ⟨[⟨c, d, l2⟩], [(c, d)]⟩ :=
    procEnt_empty t [] ⟨s, e, l2⟩ c d hf1 hf3 hs hc (by simp)
  have hstep12 : procEnt t ⟨[⟨c, d, l1⟩], [(c, d)]⟩ ⟨s, e, l2⟩ = ⟨[⟨c, d, l1⟩], [(c, d)]⟩ := by
    rw [procEnt_samespan t [(c, d)] l1 ⟨s, e, l2⟩ c d hf1 hf3 hs hc hcd]
    rw [if_neg (show ¬ labelPriority (⟨s, e, l2⟩ : Ent).l > labelPriority l1 by
      show ¬ labelPriority l2 > labelPriority l1
      omega)]
  have hstep21 : procEnt t ⟨[⟨c, d, l2⟩], [(c, d)]⟩ ⟨s, e, l1⟩ = ⟨[⟨c, d, l1⟩], [(c, d)]⟩ := by
    rw [procEnt_samespan t [(c, d)] l2 ⟨s, e, l1⟩ c d hf1 hf2 hs hc hcd]
    rw [if_pos (show labelPriority (⟨s, e, l1⟩ : Ent).l > labelPriority l2 by
      show labelPriority l1 > labelPriority l2
      omega)]
  constructor
  · unfold convertEntitiesToTuples
    rw [hsort1]
    simp only [List.foldl_cons, List.foldl_nil, hstep1, hstep12]
    rfl
  · unfold convertEntitiesToTuples
    rw [hsort2]
    simp only [List.foldl_cons, List.foldl_nil, hstep2, hstep21]
    rfl

/-- Witness for C2 (amended): on text `"hello"`, candidates
`(0,5,"course")` and `(0,5,"credential_name")` in either order resolve to
`credential_name`, which has the higher priority. -/
theorem claim_C2_priority_witness :
    convertEntitiesToTuples [⟨0, 5, "credential_name"⟩, ⟨0, 5, "course"⟩] ("hello".data)
        = [[⟨0, 5, "credential_name"⟩]] ∧
      convertEntitiesToTuples [⟨0, 5, "course"⟩, ⟨0, 5, "credential_name"⟩] ("hello".data)
        = [[⟨0, 5, "credential_name"⟩]] :=
  claim_C2_priority ("hello".data) 0 5 "credential_name" "course" 0 5
    (by decide) (by decide) (by decide) (by decide) (by decide) (by decide) (by decide)

/-- `nsCountL` on a cons cell. -/
theorem nsCountL_cons (c : Char) (rest : List Char) :
    nsCountL (c :: rest) = (if c ≠ ' ' then 1 else 0) + nsCountL rest := by
  by_cases hc : c = ' '
  · subst hc
    simp [nsCountL, despace]
  · simp [nsCountL, despace, List.filter_cons, hc]
    omega

/-- `nsCountL` distributes over append. -/
theorem nsCountL_append (u w : List Char) :
    nsCountL (u ++ w) = nsCountL u + nsCountL w := by
  simp [nsCountL, despace]

/-- When the `end_no_space`-th non-space character lies ahead of the walk,
`original_end` is the position of that character minus one. -/
theorem mapIdxAux_snd_found (sns ens : Nat) :
    ∀ (r : List Char) (p q os oe : Nat), q ≤ ens → ens - q < nsCountL r →
      (mapIdxAux sns ens r p q (os, oe)).2 = p + nsIdx r (ens - q) - 1 := by
  intro r
  induction r with
  | nil =>
    intro p q os oe h1 h2
    simp [nsCountL, despace] at h2
  | cons c rest ih =>
    intro p q os oe h1 h2
    rw [mapIdxAux]
    by_cases hc : c = ' '
    · have hnot : ¬ (c ≠ ' ') := fun hcon => hcon hc
      rw [if_neg hnot]
      have hcnt := nsCountL_cons c rest
      rw [if_neg hnot] at hcnt
      rw [ih (p + 1) q os oe h1 (by omega)]
      rw [nsIdx, if_neg hnot]
      omega
    · rw [if_pos hc]
      by_cases hq : q = ens
      · rw [if_pos hq]
        have h0 : ens - q = 0 := by omega
        rw [h0, nsIdx, if_pos hc]
        simp
      · rw [if_neg hq]
        have hcnt := nsCountL_cons c rest
        rw [if_pos hc] at hcnt
        rw [ih (p + 1) (q + 1) (if q = sns then p else os) oe (by omega) (by omega)]
        rw [nsIdx, if_pos hc]
        rw [if_neg (by omega : ¬ (ens - q = 0))]
        rw [Nat.sub_sub]
        omega

/-- Once the walk has passed `start_no_space`, `original_start` is frozen. -/
theorem mapIdxAux_fst_after (sns ens : Nat) :
    ∀ (r : List Char) (p q os oe : Nat), sns < q →
      (mapIdxAux sns ens r p q (os, oe)).1 = os := by
  intro r
  induction r with
  | nil => intro p q os oe h; rfl
  | cons c rest ih =>
    intro p q os oe h
    rw [mapIdxAux]
    by_cases hc : c = ' '
    · have hnot : ¬ (c ≠ ' ') := fun hcon => hcon hc
      rw [if_neg hnot]
      exact ih (p + 1) q os oe h
    · rw [if_pos hc]
      have hqs : ¬ q = sns := by omega
      by_cases hq : q = ens
      · rw [if_pos hq, if_neg hqs]
      · rw [if_neg hq, if_neg hqs]
        exact ih (p + 1) (q + 1) os oe (by omega)

/-- When the `start_no_space`-th non-space character lies ahead of the walk
(and the break point does not precede it), `original_start` is the position
of that character. -/
theorem mapIdxAux_fst_found (sns ens : Nat) :
    ∀ (r : List Char) (p q os oe : Nat), q ≤ sns → sns ≤ ens → sns - q < nsCountL r →
      (mapIdxAux sns ens r p q (os, oe)).1 = p + nsIdx r (sns - q) := by
  intro r
  induction r with
  | nil =>
    intro p q os oe h1 h2 h3
    simp [nsCountL, despace] at h3
  | cons c rest ih =>
    intro p q os oe h1 h2 h3
    rw [mapIdxAux]
    by_cases hc : c = ' '
    · have hnot : ¬ (c ≠ ' ') := fun hcon => hcon hc
      rw [if_neg hnot]
      have hcnt := nsCountL_cons c rest
      rw [if_neg hnot] at hcnt
      rw [ih (p + 1) q os oe h1 h2 (by omega)]
      rw [nsIdx, if_neg hnot]
      omega
    · rw [if_pos hc]
      by_cases hqs : q = sns
      · have h0 : sns - q = 0 := by omega
        by_cases hq : q = ens
        · rw [if_pos hq, if_pos hqs]
          rw [h0, nsIdx, if_pos hc]
          simp
        · rw [if_neg hq, if_pos hqs]
          rw [mapIdxAux_fst_after sns ens rest (p + 1) (q + 1) p oe (by omega)]
          rw [h0, nsIdx, if_pos hc]
          simp
      · have hq : ¬ q = ens := by omega
        rw [if_neg hq, if_neg hqs]
        have hcnt := nsCountL_cons c rest
        rw [if_pos hc] at hcnt
        rw [ih (p + 1) (q + 1) os oe (by omega) h2 (by omega)]
        rw [nsIdx, if_pos hc]
        rw [if_neg (by omega : ¬ (sns - q = 0))]
        rw [Nat.sub_sub]
        omega

/-- `nsIdx` across an append: the `nsCountL u + k`-th non-space character of
`u ++ w` is the `k`-th one of `w`. -/
theorem nsIdx_append (u w : List Char) (k : Nat) :
    nsIdx (u ++ w) (nsCountL u + k) = u.length + nsIdx w k := by
  induction u with
  | nil => simp [nsCountL, despace]
  | cons c us ih =>
    by_cases hc : c = ' '
    · have hnot : ¬ (c ≠ ' ') := fun hcon => hcon hc
      have hcnt : nsCountL (c :: us) = nsCountL us := by
        rw [nsCountL_cons, if_neg hnot, Nat.zero_add]
      rw [List.cons_append, hcnt, nsIdx, if_neg hnot]
      rw [ih, List.length_cons]
      omega
    · have hcnt : nsCountL (c :: us) = 1 + nsCountL us := by
        rw [nsCountL_cons, if_pos hc]
      rw [List.cons_append, hcnt, nsIdx, if_pos hc]
      rw [if_neg (by omega : ¬ (1 + nsCountL us + k = 0))]
      rw [(by omega : 1 + nsCountL us + k - 1 = nsCountL us + k)]
      rw [ih, List.length_cons]
      omega

/-- The 0-th non-space character of a list with a non-space head is the
head. -/
theorem nsIdx_head (w : List Char) (c : Char) (hc : c ≠ ' ') :
    nsIdx (c :: w) 0 = 0 := by
  rw [nsIdx, if_pos hc]
  simp

/-- `nsIdx` is in range for in-range ranks. -/
theorem nsIdx_lt_length (t : List Char) (k : Nat) (hk : k < nsCountL t) :
    nsIdx t k < t.length := by
  induction t generalizing k with
  | nil => simp [nsCountL, despace] at hk
  | cons c rest ih =>
    by_cases hc : c = ' '
    · have hnot : ¬ (c ≠ ' ') := fun hcon => hcon hc
      have hcnt := nsCountL_cons c rest
      rw [if_neg hnot] at hcnt
      rw [nsIdx, if_neg hnot, List.length_cons]
      have := ih (k := k) (by omega)
      omega
    · have hcnt := nsCountL_cons c rest
      rw [if_pos hc] at hcnt
      rw [nsIdx, if_pos hc, List.length_cons]
      by_cases hk0 : k = 0
      · rw [if_pos hk0]
        omega
      · rw [if_neg hk0]
        have := ih (k := k - 1) (by omega)
        omega

/-- `nsIdx` is at least its rank argument (each step advances at most one
non-space character). -/
theorem nsIdx_ge (t : List Char) (k : Nat) (hk : k < nsCountL t) :
    k ≤ nsIdx t k := by
  induction t generalizing k with
  | nil => simp [nsCountL, despace] at hk
  | cons c rest ih =>
    by_cases hc : c = ' '
    · have hnot : ¬ (c ≠ ' ') := fun hcon => hcon hc
      have hcnt := nsCountL_cons c rest
      rw [if_neg hnot] at hcnt
      rw [nsIdx, if_neg hnot]
      have := ih (k := k) (by omega)
      omega
    · have hcnt := nsCountL_cons c rest
      rw [if_pos hc] at hcnt
      rw [nsIdx, if_pos hc]
      by_cases hk0 : k = 0
      · rw [if_pos hk0]
        omega
      · rw [if_neg hk0]
        have := ih (k := k - 1) (by omega)
        omega

/-- The character at `nsIdx` is non-space for in-range ranks. -/
theorem nsIdx_nonspace (t : List Char) (k : Nat) (hk : k < nsCountL t) :
    t.getD (nsIdx t k) ' ' ≠ ' ' := by
  induction t generalizing k with
  | nil => simp [nsCountL, despace] at hk
  | cons c rest ih =>
    by_cases hc : c = ' '
    · have hnot : ¬ (c ≠ ' ') := fun hcon => hcon hc
      have hcnt := nsCountL_cons c rest
      rw [if_neg hnot] at hcnt
      rw [nsIdx, if_neg hnot, Nat.add_comm, List.getD_cons_succ]
      exact ih (k := k) (by omega)
    · have hcnt := nsCountL_cons c rest
      rw [if_pos hc] at hcnt
      rw [nsIdx, if_pos hc]
      by_cases hk0 : k = 0
      · rw [if_pos hk0]
        simpa [List.getD_cons_zero] using hc
      · rw [if_neg hk0, Nat.add_comm, List.getD_cons_succ]
        exact ih (k := k - 1) (by omega)

/-- Every character strictly before the first non-space character is a
space. -/
theorem nsIdx_before_space (t : List Char) (j : Nat) (hj : j < nsIdx t 0) :
    t.getD j ' ' = ' ' := by
  induction t generalizing j with
  | nil => simp [nsIdx] at hj
  | cons c rest ih =>
    by_cases hc : c = ' '
    · have hnot : ¬ (c ≠ ' ') := fun hcon => hcon hc
      rw [nsIdx, if_neg hnot] at hj
      cases j with
      | zero => simpa [List.getD_cons_zero] using hc
      | succ n =>
        rw [List.getD_cons_succ]
        exact ih (j := n) (by omega)
    · rw [nsIdx, if_pos hc, if_pos rfl] at hj
      omega

/-- Counting non-space characters up to `nsIdx t k` recovers the rank `k`. -/
theorem nsCountL_take_nsIdx (t : List Char) (k : Nat) (hk : k < nsCountL t) :
    nsCountL (t.take (nsIdx t k)) = k := by
  induction t generalizing k with
  | nil => simp [nsCountL, despace] at hk
  | cons c rest ih =>
    by_cases hc : c = ' '
    · have hnot : ¬ (c ≠ ' ') := fun hcon => hcon hc
      have hcnt := nsCountL_cons c rest
      rw [if_neg hnot] at hcnt
      rw [nsIdx, if_neg hnot, Nat.add_comm, List.take_succ_cons, nsCountL_cons,
        if_neg hnot]
      rw [ih (k := k) (by omega)]
      omega
    · have hcnt := nsCountL_cons c rest
      rw [if_pos hc] at hcnt
      rw [nsIdx, if_pos hc]
      by_cases hk0 : k = 0
      · rw [if_pos hk0, hk0]
        simp [nsCountL, despace]
      · rw [if_neg hk0, Nat.add_comm, List.take_succ_cons, nsCountL_cons, if_pos hc]
        rw [ih (k := k - 1) (by omega)]
        omega

/-- One-step unfolding of the non-space count of a prefix. -/
theorem nsCountL_take_succ (t : List Char) (m : Nat) (hm : m < t.length) :
    nsCountL (t.take (m + 1)) =
      nsCountL (t.take m) + (if t.getD m ' ' ≠ ' ' then 1 else 0) := by
  induction t generalizing m with
  | nil => simp at hm
  | cons c rest ih =>
    cases m with
    | zero =>
      rw [List.take_succ_cons, List.take_zero, nsCountL_cons, List.getD_cons_zero]
      exact Nat.add_comm _ _
    | succ n =>
      rw [List.length_cons] at hm
      rw [List.take_succ_cons, List.take_succ_cons, nsCountL_cons, nsCountL_cons,
        List.getD_cons_succ]
      rw [ih (m := n) (by omega)]
      omega

/-- `getD` past an append prefix. -/
theorem getD_append_right_len (xs ys : List Char) (j : Nat) (d : Char) :
    (xs ++ ys).getD (xs.length + j) d = ys.getD j d := by
  induction xs with
  | nil => simp
  | cons c xs ih =>
    rw [List.cons_append, List.length_cons]
    rw [(by omega : xs.length + 1 + j = xs.length + j + 1)]
    rw [List.getD_cons_succ, ih]

/-- `getD` inside an append prefix. -/
theorem getD_append_left_len (xs ys : List Char) (j : Nat) (d : Char)
    (hj : j < xs.length) : (xs ++ ys).getD j d = xs.getD j d := by
  induction xs generalizing j with
  | nil => simp at hj
  | cons c xs ih =>
    cases j with
    | zero => rfl
    | succ n =>
      rw [List.length_cons] at hj
      rw [List.cons_append, List.getD_cons_succ, List.getD_cons_succ]
      exact ih (j := n) (by omega)

/-- The fuel-based forward snap satisfies the loop's unfolding equation. -/
theorem snapFwd_eq (t : List Char) (e : Nat) :
    snapFwd t e =
      if e < t.length ∧ t.getD e ' ' ≠ ' ' then snapFwd t (e + 1) else e := by
  unfold snapFwd
  rcases Nat.eq_zero_or_pos (t.length - e) with h0 | hpos
  · rw [h0]
    have hcf : ¬ (e < t.length ∧ t.getD e ' ' ≠ ' ') := by
      intro hcon
      omega
    rw [if_neg hcf]
    rfl
  · obtain ⟨f, hf⟩ : ∃ f, t.length - e = f + 1 := ⟨t.length - e - 1, by omega⟩
    have hfe : t.length - (e + 1) = f := by omega
    rw [hf, hfe]
    rfl

/-- C4 (counterexample): the despaced round trip of `map_index_to_original`
fails for the valid despaced offset pair `(0, 1)` on text `"ab"`: the mapper
returns `(0, 0)` — its `original_end` is the position of the character just
before the `end`-th non-space character, i.e. the last character inside the
match, not one past it — and re-despacing gives `(0, 0) ≠ (0, 1)`. -/
theorem claim_C4_counterexample :
    1 ≤ nsCountL "ab".data ∧
    map_index_to_original "ab".data 0 1 = (0, 0) ∧
    (nsCountL (("ab".data).take (map_index_to_original "ab".data 0 1).1),
     nsCountL (("ab".data).take (map_index_to_original "ab".data 0 1).2)) ≠ (0, 1) := by
  decide

/-- C4 (amended): the despaced round trip holds whenever `start < end`, the
despaced end offset is strictly in range, and it falls on a token boundary of
the despaced text (the character just before the `end`-th non-space character
of the original text is a space). -/
theorem claim_C4_roundtrip (t : List Char) (sns ens : Nat)
    (h1 : sns < ens) (h2 : ens < nsCountL t)
    (hsp : t.getD (nsIdx t ens - 1) ' ' = ' ') :
    nsCountL (t.take (map_index_to_original t sns ens).1) = sns ∧
    nsCountL (t.take (map_index_to_original t sns ens).2) = ens := by
  have hfst : (map_index_to_original t sns ens).1 = nsIdx t sns := by
    unfold map_index_to_original
    have h := mapIdxAux_fst_found sns ens t 0 0 0 0 (Nat.zero_le _) (by omega)
      (by rw [Nat.sub_zero]; omega)
    rw [h, Nat.sub_zero, Nat.zero_add]
  have hsnd : (map_index_to_original t sns ens).2 = nsIdx t ens - 1 := by
    unfold map_index_to_original
    have h := mapIdxAux_snd_found sns ens t 0 0 0 0 (Nat.zero_le _)
      (by rw [Nat.sub_zero]; omega)
    rw [h, Nat.sub_zero, Nat.zero_add]
  refine ⟨?_, ?_⟩
  · rw [hfst]
    exact nsCountL_take_nsIdx t sns (by omega)
  · rw [hsnd]
    have hge : ens ≤ nsIdx t ens := nsIdx_ge t ens h2
    have hlt : nsIdx t ens < t.length := nsIdx_lt_length t ens h2
    have hstep := nsCountL_take_succ t (nsIdx t ens - 1) (by omega)
    rw [(by omega : nsIdx t ens - 1 + 1 = nsIdx t ens)] at hstep
    have hnot : ¬ (t.getD (nsIdx t ens - 1) ' ' ≠ ' ') := fun hcon => hcon hsp
    rw [if_neg hnot] at hstep
    have htake := nsCountL_take_nsIdx t ens h2
    omega

/-- C4 witness: on `"ab cd"` with despaced pair `(0, 2)`, the hypotheses hold
and the round trip returns `(0, 2)`. -/
theorem claim_C4_roundtrip_witness :
    (0 < 2 ∧ 2 < nsCountL "ab cd".data ∧
      ("ab cd".data).getD (nsIdx "ab cd".data 2 - 1) ' ' = ' ') ∧
    (nsCountL (("ab cd".data).take (map_index_to_original "ab cd".data 0 2).1) = 0 ∧
     nsCountL (("ab cd".data).take (map_index_to_original "ab cd".data 0 2).2) = 2) :=
  ⟨by decide, claim_C4_roundtrip "ab cd".data 0 2 (by decide) (by decide) (by decide)⟩

/-- C3 (counterexample): on page text `"ab cd"` the course `"cd"` occurs
verbatim at offsets `(3, 5)` (snap-stable end), yet the exact matcher returns
the span `(3, 2)` with empty matched text: `map_index_to_original` maps the
despaced end `4` to `0` because the `4`-th non-space character does not exist,
so the claimed occurrence offsets are not returned. -/
theorem claim_C3_counterexample :
    pySub "ab cd".data 3 5 = "cd".data ∧
    snapFwd "ab cd".data 5 = 5 ∧
    exactMatchesOneVariant "ab cd".data "cd".data [] = [ExactMatch.mk 3 2 [] 100] ∧
    (ExactMatch.mk 3 5 "cd".data 100) ∉
      exactMatchesOneVariant "ab cd".data "cd".data [] := by
  decide

/-- C3 (amended): when the course occurs verbatim as `t = u ++ course ++ v`
with a non-space first and last character, the page text has no two adjacent
spaces, some non-space character follows the occurrence, the despaced scan
reports the occurrence, and the catalog has no lab sibling of the variant,
then the exact matcher emits the match at the occurrence's original offsets
with the end snapped forward to the next space, with confidence exactly 1.0;
and every match of the exact pass carries confidence exactly 1.0. -/
theorem claim_C3_exact_match (t u course v : List Char)
    (courseList : List (List Char))
    (ht : t = u ++ course ++ v)
    (hne : course ≠ [])
    (hhead : course.getD 0 ' ' ≠ ' ')
    (hlast : course.getD (course.length - 1) ' ' ≠ ' ')
    (hnodbl : ∀ i < t.length - 1,
        ¬(t.getD i ' ' = ' ' ∧ t.getD (i + 1) ' ' = ' '))
    (hv : 0 < nsCountL v)
    (hocc : nsCountL u ∈ findIter (despace course) (despace t))
    (hlab : hasLabSibling (course.map lowerC) courseList = false) :
    (ExactMatch.mk u.length (snapFwd t (u.length + course.length))
        (pySub t u.length (snapFwd t (u.length + course.length))) 100)
      ∈ exactMatchesOneVariant t course courseList ∧
    ∀ m ∈ exactMatchesOneVariant t course courseList, m.confPct = 100 := by
  subst ht
  obtain ⟨c0, cs, hcourse⟩ := List.exists_cons_of_ne_nil hne
  have hc0 : c0 ≠ ' ' := by
    rw [hcourse] at hhead
    simpa using hhead
  have hcpos : 1 ≤ nsCountL course := by
    rw [hcourse, nsCountL_cons, if_pos hc0]
    omega
  have hclen : 1 ≤ course.length := by
    rw [hcourse, List.length_cons]
    omega
  have hdcl : (despace course).length = nsCountL course := rfl
  have htot : nsCountL (u ++ course ++ v)
      = nsCountL u + nsCountL course + nsCountL v := by
    rw [nsCountL_append, nsCountL_append]
  have hvlen : 0 < v.length := by
    have h2 : nsCountL v ≤ v.length := by
      unfold nsCountL despace
      exact List.length_filter_le _ v
    omega
  have hlen : (u ++ course ++ v).length = u.length + course.length + v.length := by
    rw [List.length_append, List.length_append]
  have hgb : ∀ j, (u ++ course ++ v).getD (u.length + course.length + j) ' '
      = v.getD j ' ' := by
    intro j
    have h := getD_append_right_len (u ++ course) v j ' '
    rw [List.length_append] at h
    exact h
  have hfst : (map_index_to_original (u ++ course ++ v) (nsCountL u)
      (nsCountL u + (despace course).length)).1 = u.length := by
    unfold map_index_to_original
    have h := mapIdxAux_fst_found (nsCountL u) (nsCountL u + (despace course).length)
        (u ++ course ++ v) 0 0 0 0 (Nat.zero_le _) (by omega)
        (by rw [Nat.sub_zero, htot]; omega)
    rw [h, Nat.sub_zero, Nat.zero_add]
    have hidx := nsIdx_append u (course ++ v) 0
    rw [Nat.add_zero, ← List.append_assoc] at hidx
    rw [hidx, hcourse, List.cons_append, nsIdx_head _ c0 hc0, Nat.add_zero]
  have hsnd : (map_index_to_original (u ++ course ++ v) (nsCountL u)
      (nsCountL u + (despace course).length)).2
        = u.length + course.length + nsIdx v 0 - 1 := by
    unfold map_index_to_original
    have h := mapIdxAux_snd_found (nsCountL u) (nsCountL u + (despace course).length)
        (u ++ course ++ v) 0 0 0 0 (Nat.zero_le _)
        (by rw [Nat.sub_zero, htot, hdcl]; omega)
    rw [h, Nat.sub_zero, Nat.zero_add, hdcl]
    have hidx := nsIdx_append (u ++ course) v 0
    rw [Nat.add_zero, nsCountL_append, List.length_append] at hidx
    rw [hidx]
  have hm01 : nsIdx v 0 ≤ 1 := by
    by_contra hcon
    push_neg at hcon
    have hvlt : nsIdx v 0 < v.length := nsIdx_lt_length v 0 hv
    have hs0 : v.getD 0 ' ' = ' ' := nsIdx_before_space v 0 (by omega)
    have hs1 : v.getD 1 ' ' = ' ' := nsIdx_before_space v 1 (by omega)
    refine hnodbl (u.length + course.length) (by omega) ⟨?_, ?_⟩
    · have h := hgb 0
      rw [Nat.add_zero] at h
      rw [h]
      exact hs0
    · rw [hgb 1]
      exact hs1
  have hsnap : snapFwd (u ++ course ++ v) (u.length + course.length + nsIdx v 0 - 1)
      = snapFwd (u ++ course ++ v) (u.length + course.length) := by
    rcases Nat.eq_zero_or_pos (nsIdx v 0) with hm0 | hm1
    · rw [hm0, Nat.add_zero]
      have hchar : (u ++ course ++ v).getD (u.length + course.length - 1) ' ' ≠ ' ' := by
        rw [(by omega : u.length + course.length - 1 = u.length + (course.length - 1))]
        rw [List.append_assoc]
        rw [getD_append_right_len u (course ++ v) (course.length - 1) ' ']
        rw [getD_append_left_len course v (course.length - 1) ' ' (by omega)]
        exact hlast
      rw [snapFwd_eq]
      rw [if_pos ⟨by omega, hchar⟩]
      rw [(by omega : u.length + course.length - 1 + 1 = u.length + course.length)]
    · rw [(by omega : u.length + course.length + nsIdx v 0 - 1
          = u.length + course.length)]
  constructor
  · unfold exactMatchesOneVariant
    refine List.mem_filterMap.mpr ⟨nsCountL u, hocc, ?_⟩
    unfold exactOne
    have hcnd : ¬(hasLabSibling (course.map lowerC) courseList ∧
        (containsSub "lab".data ((pySub (despace (u ++ course ++ v))
            (nsCountL u + (despace course).length)
            (nsCountL u + (despace course).length + 5)).map lowerC) = true ∨
         containsSub "practical".data ((pySub (despace (u ++ course ++ v))
            (nsCountL u + (despace course).length)
            (nsCountL u + (despace course).length + 11)).map lowerC) = true)) := by
      intro hcon
      rw [hlab] at hcon
      simp at hcon
    rw [if_neg hcnd]
    rw [hfst, hsnd, hsnap]
  · intro m hm
    unfold exactMatchesOneVariant at hm
    obtain ⟨i, hi, hfi⟩ := List.mem_filterMap.mp hm
    unfold exactOne at hfi
    split at hfi
    · exact Option.noConfusion hfi
    · rw [← Option.some.inj hfi]

/-- C3 witness: on `"ab cd ef"` with `u = "ab "`, `course = "cd"`,
`v = " ef"`, all hypotheses hold and the matcher emits the match at the
occurrence offsets `(3, 5)` with confidence 1.0. -/
theorem claim_C3_exact_match_witness :
    0 < nsCountL " ef".data ∧
    ((ExactMatch.mk "ab ".data.length
        (snapFwd "ab cd ef".data ("ab ".data.length + "cd".data.length))
        (pySub "ab cd ef".data "ab ".data.length
          (snapFwd "ab cd ef".data ("ab ".data.length + "cd".data.length))) 100)
      ∈ exactMatchesOneVariant "ab cd ef".data "cd".data [] ∧
     ∀ m ∈ exactMatchesOneVariant "ab cd ef".data "cd".data [], m.confPct = 100) :=
  ⟨by decide,
   claim_C3_exact_match "ab cd ef".data "ab ".data "cd".data " ef".data []
     rfl (by decide) (by decide) (by decide) (by decide) (by decide) (by decide)
     (by decide)⟩

/-- Characterization of the successor search for a strictly sorted start
list that contains the course start: the bound is the entry immediately after
the start's occurrence (or `end_idx + 20` when that occurrence is last), and
it is positive. -/
theorem nextStartIdx_found (starts : List Nat) (startIdx endIdx : Nat)
    (hmem : startIdx ∈ starts) (hsort : starts.Pairwise (· < ·)) :
    ∃ n, nextStartIdx starts startIdx endIdx = some n ∧ 0 < n ∧
      ((∃ pre post, starts = pre ++ startIdx :: n :: post) ∨
       (∃ pre, starts = pre ++ [startIdx] ∧ n = endIdx + 20)) := by
  induction starts with
  | nil => simp at hmem
  | cons s rest ih =>
    by_cases hs : s = startIdx
    · subst hs
      cases rest with
      | nil =>
        refine ⟨endIdx + 20, ?_, by omega, Or.inr ⟨[], rfl, rfl⟩⟩
        simp [nextStartIdx, succBound]
      | cons s2 rest2 =>
        have hlt : s < s2 :=
          (List.pairwise_cons.mp hsort).1 s2 (List.mem_cons_self s2 rest2)
        refine ⟨s2, ?_, by omega, Or.inl ⟨[], rest2, rfl⟩⟩
        simp [nextStartIdx, succBound]
    · have hmem' : startIdx ∈ rest := by
        cases List.mem_cons.mp hmem with
        | inl h => exact absurd h.symm hs
        | inr h => exact h
      obtain ⟨n, h1, h2, h3⟩ := ih hmem' (List.pairwise_cons.mp hsort).2
      refine ⟨n, ?_, h2, ?_⟩
      · rw [nextStartIdx, if_neg hs]
        exact h1
      · rcases h3 with ⟨pre, post, hdec⟩ | ⟨pre, hdec, hn⟩
        · exact Or.inl ⟨s :: pre, post, by rw [hdec, List.cons_append]⟩
        · exact Or.inr ⟨s :: pre, by rw [hdec, List.cons_append], hn⟩

/-- C9 (counterexample): a successor match with `Start Index` 0 defeats the
truthiness guard `if next_start_idx:`, so no gap is computed for the accepted
course span (Python leaves `gap_text` unbound and crashes at its first use):
two matches starting at offset 0 on the same page suffice. -/
theorem claim_C9_counterexample :
    (0 : Nat) ∈ [0, 0] ∧
    gapText "abcdef".data [0, 0] 0 2 = none := by
  decide

/-- C9 (amended): for every accepted course span whose start occurs in the
strictly sorted per-page start list, a gap text is computed and equals
exactly `page_text[end : next_start]` for the successor start of the course's
occurrence, or `page_text[end : end + 20]` when the occurrence is the last
entry. -/
theorem claim_C9_gap_window (pageText : List Char) (starts : List Nat)
    (startIdx endIdx : Nat)
    (hmem : startIdx ∈ starts) (hsort : starts.Pairwise (· < ·)) :
    ∃ n, gapText pageText starts startIdx endIdx
        = some (pySub pageText endIdx n) ∧
      ((∃ pre post, starts = pre ++ startIdx :: n :: post) ∨
       (∃ pre, starts = pre ++ [startIdx] ∧ n = endIdx + 20)) := by
  obtain ⟨n, h1, h2, h3⟩ := nextStartIdx_found starts startIdx endIdx hmem hsort
  refine ⟨n, ?_, h3⟩
  unfold gapText
  rw [h1]
  show (if n = 0 then none else some (pySub pageText endIdx n))
      = some (pySub pageText endIdx n)
  rw [if_neg (by omega : ¬ n = 0)]

/-- C9 witness: starts `[2, 5, 11]`, course span start 5 and end 8: the gap
is `page_text[8 : 11]` with 11 the successor start. -/
theorem claim_C9_gap_window_witness :
    ((5 : Nat) ∈ [2, 5, 11] ∧ List.Pairwise (· < ·) [2, 5, 11]) ∧
    ∃ n, gapText "abcdefghijklmnop".data [2, 5, 11] 5 8
        = some (pySub "abcdefghijklmnop".data 8 n) ∧
      ((∃ pre post, ([2, 5, 11] : List Nat) = pre ++ 5 :: n :: post) ∨
       (∃ pre, ([2, 5, 11] : List Nat) = pre ++ [5] ∧ n = 8 + 20)) :=
  ⟨⟨by decide, by simp⟩,
   claim_C9_gap_window "abcdefghijklmnop".data [2, 5, 11] 5 8
     (by decide) (by simp)⟩

/-- Slicing inside a slice: a sub-slice of `t[s : s+n]` is the shifted slice
of `t`. -/
theorem pySub_nested (t : List Char) (s a b n : Nat) (hb : b ≤ n) :
    pySub (pySub t s (s + n)) a b = pySub t (s + a) (s + b) := by
  unfold pySub
  rw [Nat.add_sub_cancel_left]
  rw [(by omega : s + b - (s + a) = b - a)]
  rw [List.drop_take, List.drop_drop, List.take_take]
  rw [Nat.min_eq_left (by omega)]

/-- C7: when the gap window after a course span reads `" 300 b+"` and the
expected numeric mark is `"3.0"`, the gap-field extractor matches the
zero-padded variant `"300"` (an element of its decimal-variant set) and
reports the span `(end+1, end+4)` relative to the full page text, which
delimits exactly that `"300"` occurrence inside the gap. -/
theorem claim_C7_digit_glue (page : List Char) (endIdx : Nat)
    (hgap : pySub page endIdx (endIdx + 7) = " 300 b+".data) :
    checkAndExtract "3.0".data (pySub page endIdx (endIdx + 7)) endIdx
        = some (some (endIdx + 1, endIdx + 4, " 300 ".data)) ∧
    pySub page (endIdx + 1) (endIdx + 4) = "300".data := by
  constructor
  · rw [hgap]
    have h1 : ¬("3.0".data = [] ∨ "3.0".data.all pyWS = true) := by decide
    have hd : searchPat ["3.0".data] " 300 b+".data = none := by decide
    have hp : parseDec "3.0".data = some (['3'], ['0']) := by decide
    have hv : searchPat (decimalVariants "3.0".data) " 300 b+".data
        = some (1, 4, "300".data) := by decide
    have hm : ¬("300".data.all pyWS = true) := by decide
    unfold checkAndExtract
    simp only [if_neg h1, hd, hp, hv, if_neg hm]
    simp [Nat.add_comm]
  · have h := pySub_nested page endIdx 1 4 7 (by omega)
    rw [hgap] at h
    rw [← h]
    decide

/-- C7 witness: the page is the gap itself (`end = 0`). -/
theorem claim_C7_digit_glue_witness :
    pySub " 300 b+".data 0 (0 + 7) = " 300 b+".data ∧
    (checkAndExtract "3.0".data (pySub " 300 b+".data 0 (0 + 7)) 0
        = some (some (0 + 1, 0 + 4, " 300 ".data)) ∧
     pySub " 300 b+".data (0 + 1) (0 + 4) = "300".data) :=
  ⟨by decide, claim_C7_digit_glue " 300 b+".data 0 (by decide)⟩

/-- Tokens produced by the split accumulator are non-empty. -/
theorem pySplitAux_ne_nil : ∀ (t acc : List Char), ∀ w ∈ pySplitAux t acc, w ≠ [] := by
  intro t
  induction t with
  | nil =>
    intro acc w hw
    rw [pySplitAux] at hw
    split at hw
    · simp at hw
    · rename_i hacc
      simp at hw
      subst hw
      simp only [ne_eq, List.reverse_eq_nil_iff]
      exact hacc
  | cons c rest ih =>
    intro acc w hw
    rw [pySplitAux] at hw
    split at hw
    · split at hw
      · exact ih [] w hw
      · rename_i hacc
        cases List.mem_cons.mp hw with
        | inl h =>
          subst h
          simp only [ne_eq, List.reverse_eq_nil_iff]
          exact hacc
        | inr h => exact ih [] w h
    · exact ih (c :: acc) w hw

/-- Tokens of `str.split()` are non-empty. -/
theorem pySplit_ne_nil (t : List Char) : ∀ w ∈ pySplit t, w ≠ [] :=
  pySplitAux_ne_nil t []

/-- Joining a non-empty list of non-empty words is non-empty. -/
theorem joinSpace_ne_nil (l : List (List Char)) (hl : l ≠ [])
    (hw : ∀ w ∈ l, w ≠ []) : joinSpace l ≠ [] := by
  cases l with
  | nil => exact absurd rfl hl
  | cons w ws =>
    cases ws with
    | nil =>
      rw [joinSpace]
      exact hw w (List.mem_cons_self w [])
    | cons v ws2 => simp [joinSpace]

/-- The score-chain drops only remove words of the current list. -/
theorem scoreDrop2_sub (cn1 cn2 : List Char) (s1 s2 : Nat)
    (l : List (List Char)) : ∀ w ∈ scoreDrop2 cn1 cn2 s1 s2 l, w ∈ l := by
  intro w hw
  unfold scoreDrop2 at hw
  split at hw
  · exact (List.dropLast_sublist l).subset hw
  · split at hw
    · split at hw
      · exact List.mem_of_mem_drop hw
      · exact hw
    · split at hw
      · split at hw
        · exact (List.dropLast_sublist l).subset hw
        · exact hw
      · exact hw

/-- With a non-zero last-word score, the score chain keeps at least one of
two or more words. -/
theorem scoreDrop2_len (cn1 cn2 : List Char) (s1 s2 : Nat)
    (l : List (List Char)) (h2 : ¬ s2 = 0) (hl : 2 ≤ l.length) :
    1 ≤ (scoreDrop2 cn1 cn2 s1 s2 l).length := by
  unfold scoreDrop2
  rw [if_neg h2]
  split
  · split
    · rw [List.length_drop]
      omega
    · omega
  · split
    · split
      · rw [List.length_dropLast]
        omega
      · omega
    · omega

/-- C5 (counterexample): the multi-token match `"aa bb"` for the multi-token
course `"xx yy"` is trimmed to the empty string: both boundary similarity
scores are 0, so the first and the last word are both dropped. -/
theorem claim_C5_counterexample :
    2 ≤ (pySplit "xx yy".data).length ∧
    2 ≤ (pySplit (trim_leading_stopwords "aa bb".data)).length ∧
    trim_by_words "xx yy".data "aa bb".data = some [] := by
  decide

/-- C5 (amended): for a course name of at least two tokens and a match text
of at least two tokens after leading-stop-word trimming, the trimmer returns
a non-empty string provided the two `'+'`/single-letter boundary pre-trims
do not fire and both boundary similarity scores (against the possibly
Roman/numeral-adjusted course boundary words) are non-zero. -/
theorem claim_C5_trimmer (courseName bestMatchText : List Char)
    (hc : 2 ≤ (pySplit courseName).length)
    (hm : 2 ≤ (pySplit (trim_leading_stopwords bestMatchText)).length)
    (hp1 : plusTrim1 courseName (pySplit courseName)
        (pySplit (trim_leading_stopwords bestMatchText))
        = pySplit (trim_leading_stopwords bestMatchText))
    (hp2 : plusTrim2 courseName (pySplit (trim_leading_stopwords bestMatchText))
        = pySplit (trim_leading_stopwords bestMatchText))
    (hs1 : fuzzScore (((pySplit courseName).headD []).map lowerC)
        (((pySplit (trim_leading_stopwords bestMatchText)).headD []).map lowerC) ≠ 0)
    (hs2 : fuzzScore
        ((adjustedCN2 ((pySplit courseName).getLastD [])
          ((pySplit (trim_leading_stopwords bestMatchText)).getLastD [])).map lowerC)
        (((pySplit (trim_leading_stopwords bestMatchText)).getLastD []).map lowerC)
        ≠ 0) :
    ∃ out, trim_by_words courseName bestMatchText = some out ∧ out ≠ [] := by
  obtain ⟨w, ws, hbw⟩ : ∃ w ws,
      pySplit (trim_leading_stopwords bestMatchText) = w :: ws := by
    cases hb : pySplit (trim_leading_stopwords bestMatchText) with
    | nil =>
      rw [hb] at hm
      simp at hm
    | cons w ws => exact ⟨w, ws, rfl⟩
  have h0 : ¬((pySplit courseName).length = 0
      ∨ (pySplit (trim_leading_stopwords bestMatchText)).length = 0) := by omega
  have h1 : ¬((pySplit courseName).length = 1
      ∨ (pySplit (trim_leading_stopwords bestMatchText)).length = 1) := by omega
  unfold trim_by_words
  rw [if_neg h0, if_neg h1]
  unfold trimCore
  rw [hp1, hp2, hbw]
  rw [hbw] at hs1 hs2 hm
  simp only [List.headD_cons] at hs1
  refine ⟨_, rfl, ?_⟩
  have hid : scoreDrop1
      (fuzzScore (((pySplit courseName).headD []).map lowerC) (w.map lowerC))
      (w :: ws) = w :: ws := by
    rw [scoreDrop1, if_neg hs1]
  rw [hid]
  apply joinSpace_ne_nil
  · apply List.ne_nil_of_length_pos
    have := scoreDrop2_len ((pySplit courseName).headD [])
      (adjustedCN2 ((pySplit courseName).getLastD []) ((w :: ws).getLastD []))
      (fuzzScore (((pySplit courseName).headD []).map lowerC) (w.map lowerC))
      (fuzzScore ((adjustedCN2 ((pySplit courseName).getLastD [])
          ((w :: ws).getLastD [])).map lowerC) (((w :: ws).getLastD []).map lowerC))
      (w :: ws) hs2 hm
    omega
  · intro x hx
    have hx' := scoreDrop2_sub _ _ _ _ _ x hx
    exact pySplit_ne_nil (trim_leading_stopwords bestMatchText) x
      (by rw [hbw]; exact hx')

/-- C5 witness: course `"ab cd"` against match `"ab cd"`: both boundary
scores are 100 and the trimmed result is non-empty. -/
theorem claim_C5_trimmer_witness :
    2 ≤ (pySplit "ab cd".data).length ∧
    ∃ out, trim_by_words "ab cd".data "ab cd".data = some out ∧ out ≠ [] :=
  ⟨by decide,
   claim_C5_trimmer "ab cd".data "ab cd".data (by decide) (by decide)
     (by decide) (by decide) (by decide) (by decide)⟩

/-- C6 (counterexample): the window scan does not stop early at similarity
1.0 — the `if max_confidence > 0.90: continue` guard precedes the
`== 1.0` break, so the break is dead. On page words `aa bb x aa bb` with
variant `"aa bb"`, the very first window already has similarity 1.0 (and its
step does not raise the break flag), yet the scan continues and the
tie-rescoring hands the final best-match start index to the later
occurrence, word index 3. -/
theorem claim_C6_counterexample :
    calculate_confidence (joinSpace ((pySplit "aa bb x aa bb".data).take 2))
        "aa bb".data = 100 ∧
    (scanStep "aa bb".data (pySplit "aa bb x aa bb".data) ⟨0, [], 0, []⟩ 0).2
        = false ∧
    (runScan "aa bb".data (pySplit "aa bb x aa bb".data) 0).idx = 3 := by
  decide

/-- C6 (amended): the threshold behaviour holds even though the early stop
does not: a fuzzy match is emitted only when the scan's best similarity is
at least 0.80, and then carries exactly that similarity as its confidence;
below 0.80 the variant only produces a low-confidence record. In
`match_entity`'s character-window fallback (over raw text, with the external
`clean_text` as a parameter), a span is added only when the best similarity
is at least 0.85, and below 0.85 nothing is added. -/
theorem claim_C6_thresholds :
    (∀ pageText course courseNames curPos r,
        fuzzyEmitOneVariant pageText course courseNames curPos
          = FuzzyOut.emitted r →
        80 ≤ r.confPct ∧
        r.confPct = (runScan course (pySplit pageText) curPos).maxConf) ∧
    (∀ pageText course courseNames curPos,
        (runScan course (pySplit pageText) curPos).maxConf < 80 →
        fuzzyEmitOneVariant pageText course courseNames curPos
          = FuzzyOut.low (runScan course (pySplit pageText) curPos).best
              (runScan course (pySplit pageText) curPos).maxConf) ∧
    (∀ cleanF pageText entry spans,
        matchEntityFallback cleanF pageText entry = some spans → spans ≠ [] →
        85 ≤ (charScan cleanF pageText (cleanF entry)).1) ∧
    (∀ cleanF pageText entry,
        (charScan cleanF pageText (cleanF entry)).1 < 85 →
        matchEntityFallback cleanF pageText entry = some []) := by
  refine ⟨?_, ?_, ?_, ?_⟩
  · intro pageText course courseNames curPos r h
    unfold fuzzyEmitOneVariant at h
    by_cases h80 : 80 ≤ (runScan course (pySplit pageText) curPos).maxConf
    · rw [if_pos h80] at h
      split at h
      · split at h
        · exact FuzzyOut.noConfusion h
        · split at h
          · exact FuzzyOut.noConfusion h
          · split at h
            · exact FuzzyOut.noConfusion h
            · rw [← FuzzyOut.emitted.inj h]
              exact ⟨h80, rfl⟩
      · split at h
        · split at h
          · exact FuzzyOut.noConfusion h
          · split at h
            · exact FuzzyOut.noConfusion h
            · split at h
              · exact FuzzyOut.noConfusion h
              · rw [← FuzzyOut.emitted.inj h]
                exact ⟨h80, rfl⟩
        · split at h
          · exact FuzzyOut.noConfusion h
          · split at h
            · exact FuzzyOut.noConfusion h
            · rw [← FuzzyOut.emitted.inj h]
              exact ⟨h80, rfl⟩
    · rw [if_neg h80] at h
      exact FuzzyOut.noConfusion h
  · intro pageText course courseNames curPos hlt
    unfold fuzzyEmitOneVariant
    rw [if_neg (by omega)]
  · intro cleanF pageText entry spans h hne
    by_cases h85 : 85 ≤ (charScan cleanF pageText (cleanF entry)).1
    · exact h85
    · unfold matchEntityFallback at h
      rw [if_neg h85] at h
      exact absurd (Option.some.inj h).symm hne
  · intro cleanF pageText entry hlt
    unfold matchEntityFallback
    rw [if_neg (by omega)]

/-- C6 witness: on page `"aa bb"` with variant `"aa bb"` the pass emits the
match with confidence 1.0, instantiating the first threshold conjunct. -/
theorem claim_C6_thresholds_witness :
    fuzzyEmitOneVariant "aa bb".data "aa bb".data ["aa bb".data] 0
        = FuzzyOut.emitted ⟨0, 5, "aa bb".data, 100⟩ ∧
    (80 ≤ (100 : Nat) ∧
     (100 : Nat) = (runScan "aa bb".data (pySplit "aa bb".data) 0).maxConf) :=
  ⟨by decide,
   claim_C6_thresholds.1 "aa bb".data "aa bb".data ["aa bb".data] 0
     ⟨0, 5, "aa bb".data, 100⟩ (by decide)⟩

/-- C8 (counterexample): the lab-sibling discard is keyed on the VARIANT
string, not the catalog course. With catalog `mathematics ii` +
`mathematics ii lab` and page `"MATHEMATICS 2 lab grade B+"`, the numeral
variant `"mathematics 2"` matches with `"lab"` in the next five despaced
characters — the situation the claim says is discarded — yet a match is
emitted, because `"mathematics 2 lab"` is not a catalog entry and the guard
never fires. -/
theorem claim_C8_counterexample :
    ("mathematics ii lab".data
        ∈ (["mathematics ii", "mathematics ii lab"] : List String).map String.data) ∧
    containsSub "lab".data
        ((pySub (despace "MATHEMATICS 2 lab grade B+".data) 12 17).map lowerC)
      = true ∧
    hasLabSibling ("mathematics 2".data.map lowerC)
        ((["mathematics ii", "mathematics ii lab"] : List String).map String.data)
      = false ∧
    exactMatchesOneVariant "MATHEMATICS 2 lab grade B+".data "mathematics 2".data
        ((["mathematics ii", "mathematics ii lab"] : List String).map String.data)
      ≠ [] := by
  decide

/-- C8 (amended): on text `"MATHEMATICS 2 lab grade B+"` the span emitted
for the lecture course through the numeral variant is exactly
`"MATHEMATICS 2"` and never includes `"lab"` — but through the end-offset
mapping, not through the discard; the discard fires exactly when the
lowercased catalog holds the variant itself with a `" lab"` suffix, as with
the Roman variant `"mathematics ii"` on `"MATHEMATICS II lab grade B+"`,
which is discarded entirely. -/
theorem claim_C8_lab_guard :
    exactMatchesOneVariant "MATHEMATICS 2 lab grade B+".data "mathematics 2".data
        ((["mathematics ii", "mathematics ii lab"] : List String).map String.data)
      = [ExactMatch.mk 0 13 "MATHEMATICS 2".data 100] ∧
    pySub "MATHEMATICS 2 lab grade B+".data 0 13 = "MATHEMATICS 2".data ∧
    hasLabSibling ("mathematics ii".data.map lowerC)
        ((["mathematics ii", "mathematics ii lab"] : List String).map String.data)
      = true ∧
    exactMatchesOneVariant "MATHEMATICS II lab grade B+".data "mathematics ii".data
        ((["mathematics ii", "mathematics ii lab"] : List String).map String.data)
      = [] := by
  decide

/-- C1 witness: a single accepted entity yields a group, and it is pairwise
non-overlapping. -/
theorem claim_C1_resolver_no_overlap_witness :
    ([⟨0, 5, "course"⟩] : List Ent)
        ∈ convertEntitiesToTuples [⟨0, 5, "course"⟩] "hello".data ∧
    ([⟨0, 5, "course"⟩] : List Ent).Pairwise
        (fun a b => ¬ (a.s < b.e ∧ a.e > b.s)) :=
  ⟨by decide,
   claim_C1_resolver_no_overlap [⟨0, 5, "course"⟩] "hello".data
     [⟨0, 5, "course"⟩] (by decide)⟩

/-- C10 witness: the accepted entity of the C1 witness is snap-aligned. -/
theorem claim_C10_alignment_witness :
    (([⟨0, 5, "course"⟩] : List Ent)
        ∈ convertEntitiesToTuples [⟨0, 5, "course"⟩] "hello".data) ∧
    (((⟨0, 5, "course"⟩ : Ent).s = 0
        ∨ ("hello".data).length ≤ (⟨0, 5, "course"⟩ : Ent).s
        ∨ ("hello".data).getD ((⟨0, 5, "course"⟩ : Ent).s - 1) ' ' = ' ') ∧
     ((⟨0, 5, "course"⟩ : Ent).e = 0
        ∨ ("hello".data).length ≤ (⟨0, 5, "course"⟩ : Ent).e
        ∨ ("hello".data).getD (⟨0, 5, "course"⟩ : Ent).e ' ' = ' ') ∧
     (⟨0, 5, "course"⟩ : Ent).s ≤ (⟨0, 5, "course"⟩ : Ent).e) :=
  ⟨by decide,
   claim_C10_alignment [⟨0, 5, "course"⟩] "hello".data [⟨0, 5, "course"⟩]
     (by decide) ⟨0, 5, "course"⟩ (by decide)⟩

end Lab
